import Mathlib

/-!
# Verification of libevent-linux utility layer (`evutil.c`, `evutil_time.c`,
  `arc4random.c`, `evutil_rand.c`) against its design specification

This file gives a shallow embedding of the portions of the repository that the
specification's checkable sentences are about, and proves (or refutes) each
sentence against that embedding.

Modelling conventions:

* C `struct timeval` becomes a structure of two `Int` fields (`time_t` /
  `suseconds_t` are signed integers; on this Linux/LP64 target both are 64-bit
  and none of the verified code paths can overflow them, so plain `Int` is the
  faithful model of their defined behaviour).
* C truncating division (`/` on signed integers, which rounds toward zero) is
  `Int.tdiv`.
* System calls (`gettimeofday`, `clock_gettime`, `pipe`, `fcntl`, ...) are
  modelled by explicit oracle parameters describing the outcome the kernel
  chooses, together with an explicit kernel state where the call has effects on
  kernel objects (descriptor tables).  All theorems quantify over every oracle.
-/

namespace Evutil

/-! ## `struct timeval` and the `<sys/time.h>` macros used by `evutil_time.c`

`timeradd`/`timersub` are the glibc macros: componentwise add/subtract with a
single carry/borrow normalisation step of the microsecond field.
`evutil_timercmp tv uv <` is the macro from `event2/util.h`:
lexicographic comparison of `(tv_sec, tv_usec)`. -/

structure Timeval where
  tv_sec : Int
  tv_usec : Int
  deriving Repr, DecidableEq

/-- glibc `timeradd(a, b, result)`. -/
def timeradd (a b : Timeval) : Timeval :=
  let sec := a.tv_sec + b.tv_sec
  let usec := a.tv_usec + b.tv_usec
  if 1000000 ≤ usec then ⟨sec + 1, usec - 1000000⟩ else ⟨sec, usec⟩

/-- glibc `timersub(a, b, result)`. -/
def timersub (a b : Timeval) : Timeval :=
  let sec := a.tv_sec - b.tv_sec
  let usec := a.tv_usec - b.tv_usec
  if usec < 0 then ⟨sec - 1, usec + 1000000⟩ else ⟨sec, usec⟩

/-- `evutil_timercmp(a, b, <)` from `event2/util.h`. -/
def timercmpLt (a b : Timeval) : Bool :=
  if a.tv_sec = b.tv_sec then a.tv_usec < b.tv_usec else a.tv_sec < b.tv_sec

/-- "`a` is no later than `b`" in the order the code compares with:
the negation of `evutil_timercmp(b, a, <)`. -/
def tvLe (a b : Timeval) : Prop := timercmpLt b a = false

instance : DecidablePred fun p : Timeval × Timeval => tvLe p.1 p.2 := by
  intro p; unfold tvLe; infer_instance

/-! ## `evutil_tv_to_msec_` (`evutil_time.c:46`) -/

/-- `LONG_MAX` on the Linux/LP64 target. -/
def LONG_MAX : Int := 9223372036854775807

/-- `MAX_SECONDS_IN_MSEC_LONG` (`evutil_time.c:43`): `((LONG_MAX) - 999) / 1000`
with C truncating division. -/
def MAX_SECONDS_IN_MSEC_LONG : Int := Int.tdiv (LONG_MAX - 999) 1000

/-- `evutil_tv_to_msec_` (`evutil_time.c:46-53`). -/
def evutil_tv_to_msec_ (tv : Timeval) : Int :=
  if 1000000 < tv.tv_usec ∨ MAX_SECONDS_IN_MSEC_LONG < tv.tv_sec then -1
  else tv.tv_sec * 1000 + Int.tdiv (tv.tv_usec + 999) 1000

/-! ## The monotonic timer (`evutil_time.c`) -/

/-- `struct evutil_monotonic_timer` (`time-internal.h`). -/
structure EvutilMonotonicTimer where
  monotonic_clock : Int
  adjust_monotonic_clock : Timeval
  last_time : Timeval
  deriving Repr, DecidableEq

/-- `adjust_monotonic_time` (`evutil_time.c:102-117`): the forward-only
ratchet applied to raw `gettimeofday` readings.  Returns the mutated timer
and the value stored through the out-parameter `tv`. -/
def adjust_monotonic_time (base : EvutilMonotonicTimer) (tv0 : Timeval) :
    EvutilMonotonicTimer × Timeval :=
  let tv := timeradd tv0 base.adjust_monotonic_clock
  if timercmpLt tv base.last_time then
    let adjust := timersub base.last_time tv
    let base' := { base with
      adjust_monotonic_clock := timeradd adjust base.adjust_monotonic_clock }
    ({ base' with last_time := base.last_time }, base.last_time)
  else
    ({ base with last_time := tv }, tv)

/-- `struct timespec`. -/
structure Timespec where
  ts_sec : Int
  ts_nsec : Int
  deriving Repr, DecidableEq

/-- `evutil_gettime_monotonic_` (`evutil_time.c:217-236`).  The two system
calls it may perform are modelled by oracles: `gtod` is the outcome of
`gettimeofday` (`none` = the call failed), `cg` the outcome of
`clock_gettime(base->monotonic_clock, ...)`.  The result is the mutated timer
and `some tp` on return `0`, `none` on return `-1`. -/
def evutil_gettime_monotonic_ (base : EvutilMonotonicTimer)
    (gtod : Option Timeval) (cg : Option Timespec) :
    EvutilMonotonicTimer × Option Timeval :=
  if base.monotonic_clock < 0 then
    match gtod with
    | none => (base, none)
    | some tp =>
        let r := adjust_monotonic_time base tp
        (r.1, some r.2)
  else
    match cg with
    | none => (base, none)
    | some ts => (base, some ⟨ts.ts_sec, Int.tdiv ts.ts_nsec 1000⟩)

/-- Feed a sequence of `gettimeofday` outcomes through repeated calls of
`evutil_gettime_monotonic_` (in fallback mode the `clock_gettime` oracle is
never consulted; we pass `none`), collecting the successfully returned times. -/
def runMonotonic (base : EvutilMonotonicTimer) :
    List (Option Timeval) → List Timeval
  | [] => []
  | r :: rs =>
      let step := evutil_gettime_monotonic_ base r none
      match step.2 with
      | none => runMonotonic step.1 rs
      | some tv => tv :: runMonotonic step.1 rs

/-! ## `evutil_configure_monotonic_time_` (`evutil_time.c:176-215`) -/

/-- `CLOCK_MONOTONIC` on Linux. -/
def CLOCK_MONOTONIC : Int := 1
/-- `CLOCK_MONOTONIC_COARSE` on Linux. -/
def CLOCK_MONOTONIC_COARSE : Int := 6
/-- `EV_MONOT_PRECISE` (`event2/util.h:77`). -/
def EV_MONOT_PRECISE : Nat := 1
/-- `EV_MONOT_FALLBACK` (`event2/util.h:78`). -/
def EV_MONOT_FALLBACK : Nat := 2

/-- Outcomes of the two `clock_gettime` probes the function may attempt. -/
structure ClockProbe where
  coarseOk : Bool
  monoOk : Bool

/-- `evutil_configure_monotonic_time_` (`evutil_time.c:176-215`), with
`CLOCK_MONOTONIC_COARSE` available (this is the Linux-only tree).  Returns the
mutated timer and the `int` return value. -/
def evutil_configure_monotonic_time_ (base : EvutilMonotonicTimer)
    (flags : Nat) (probe : ClockProbe) : EvutilMonotonicTimer × Int :=
  let precise := flags &&& EV_MONOT_PRECISE
  let fallback := flags &&& EV_MONOT_FALLBACK
  if precise = 0 ∧ fallback = 0 ∧ probe.coarseOk then
    ({ base with monotonic_clock := CLOCK_MONOTONIC_COARSE }, 0)
  else if fallback = 0 ∧ probe.monoOk then
    ({ base with monotonic_clock := CLOCK_MONOTONIC }, 0)
  else
    ({ base with monotonic_clock := -1 }, 0)

/-! ### Facts about the ratchet -/

theorem timercmpLt_irrefl (a : Timeval) : timercmpLt a a = false := by
  simp [timercmpLt]

theorem tvLe_refl (a : Timeval) : tvLe a a := timercmpLt_irrefl a

theorem tvLe_of_not_lt {a b : Timeval} (h : timercmpLt a b = false) : tvLe b a := h

/-- `tvLe` is transitive (it is the lexicographic order on `(sec, usec)`). -/
theorem tvLe_trans {a b c : Timeval} (h1 : tvLe a b) (h2 : tvLe b c) :
    tvLe a c := by
  unfold tvLe timercmpLt at *
  by_cases h1s : b.tv_sec = a.tv_sec <;> by_cases h2s : c.tv_sec = b.tv_sec <;>
    by_cases h3s : c.tv_sec = a.tv_sec <;>
    simp_all <;> omega

/-- The single-step ratchet guarantee: `adjust_monotonic_time` never returns a
time earlier than the stored `last_time`, and stores the returned time as the
new `last_time`.  It also leaves `monotonic_clock` untouched. -/
theorem adjust_monotonic_time_spec (base : EvutilMonotonicTimer)
    (tv0 : Timeval) :
    tvLe base.last_time (adjust_monotonic_time base tv0).2 ∧
    (adjust_monotonic_time base tv0).1.last_time =
      (adjust_monotonic_time base tv0).2 ∧
    (adjust_monotonic_time base tv0).1.monotonic_clock =
      base.monotonic_clock := by
  unfold adjust_monotonic_time
  cases h : timercmpLt (timeradd tv0 base.adjust_monotonic_clock)
      base.last_time with
  | true =>
      refine ⟨?_, ?_, ?_⟩ <;> simp only [h, if_true] <;>
        first
          | exact tvLe_refl _
          | rfl
  | false =>
      refine ⟨?_, ?_, ?_⟩ <;>
        simp only [h, Bool.false_eq_true, if_false] <;>
        first
          | exact tvLe_of_not_lt h
          | rfl

/-- Auxiliary: the whole output sequence of the emulated clock, with the
timer's current `last_time` prepended, is non-decreasing. -/
theorem runMonotonic_chain (rs : List (Option Timeval)) :
    ∀ base : EvutilMonotonicTimer, base.monotonic_clock < 0 →
      List.Chain' tvLe (base.last_time :: runMonotonic base rs) := by
  induction rs with
  | nil => intro base _; simp [runMonotonic]
  | cons r rs ih =>
      intro base hneg
      cases r with
      | none =>
          have hstep : evutil_gettime_monotonic_ base none none = (base, none) := by
            unfold evutil_gettime_monotonic_
            simp [hneg]
          simp only [runMonotonic, hstep]
          exact ih base hneg
      | some tv =>
          have hspec := adjust_monotonic_time_spec base tv
          have hstep : evutil_gettime_monotonic_ base (some tv) none =
              ((adjust_monotonic_time base tv).1,
                some (adjust_monotonic_time base tv).2) := by
            unfold evutil_gettime_monotonic_
            simp [hneg]
          simp only [runMonotonic, hstep]
          have hneg' : (adjust_monotonic_time base tv).1.monotonic_clock < 0 := by
            rw [hspec.2.2]; exact hneg
          have htail := ih (adjust_monotonic_time base tv).1 hneg'
          rw [hspec.2.1] at htail
          exact List.Chain'.cons hspec.1 htail

/-- **C1.** In fallback mode (`monotonic_clock < 0`), for every sequence of raw
`gettimeofday` outcomes fed through `evutil_gettime_monotonic_` on a single
timer, the sequence of returned times is monotonically non-decreasing (in the
order `evutil_timercmp` compares with), and every returned value is no earlier
than the ratchet's `last_time` at the start — even when the raw clock jumps
backward. -/
theorem monotonic_fallback_forward_only (base : EvutilMonotonicTimer)
    (rs : List (Option Timeval)) (hfb : base.monotonic_clock < 0) :
    List.Chain' tvLe (base.last_time :: runMonotonic base rs) :=
  runMonotonic_chain rs base hfb

/-- Witness for C1: a concrete run in which the raw clock jumps backward twice;
the emulated clock still never decreases. -/
theorem monotonic_fallback_forward_only_witness :
    (({ monotonic_clock := -1, adjust_monotonic_clock := ⟨0, 0⟩,
        last_time := ⟨0, 0⟩ } : EvutilMonotonicTimer).monotonic_clock < 0) ∧
    List.Chain' tvLe
      (({ monotonic_clock := -1, adjust_monotonic_clock := ⟨0, 0⟩,
          last_time := ⟨0, 0⟩ } : EvutilMonotonicTimer).last_time ::
        runMonotonic
          { monotonic_clock := -1, adjust_monotonic_clock := ⟨0, 0⟩,
            last_time := ⟨0, 0⟩ }
          [some ⟨100, 500⟩, some ⟨90, 0⟩, none, some ⟨95, 400⟩,
            some ⟨101, 0⟩]) :=
  ⟨by decide,
    monotonic_fallback_forward_only
      { monotonic_clock := -1, adjust_monotonic_clock := ⟨0, 0⟩,
        last_time := ⟨0, 0⟩ }
      [some ⟨100, 500⟩, some ⟨90, 0⟩, none, some ⟨95, 400⟩, some ⟨101, 0⟩]
      (by decide)⟩

/-! ### `evutil_tv_to_msec_` : C2 -/

/-- **C2, counterexample.**  The claim quantifies over *every* `struct timeval`
input, but for a negative interval such as `{tv_sec = -1, tv_usec = 0}` the
range guard does not fire and the function returns `-1000`: a negative value
that is not the `-1` sentinel.  So "never yields a negative budget" is false as
stated. -/
theorem tv_to_msec_negative_counterexample :
    evutil_tv_to_msec_ ⟨-1, 0⟩ < 0 ∧ evutil_tv_to_msec_ ⟨-1, 0⟩ ≠ -1 := by
  constructor <;> decide

/-- **C2, amended.**  For every *non-negative* `struct timeval` (the only
inputs the timeout machinery produces), `evutil_tv_to_msec_` returns either
the sentinel `-1` — exactly when the interval is too large to represent
(`tv_usec > 1000000` or `tv_sec > (LONG_MAX-999)/1000`) — or a non-negative
millisecond count equal to the total interval in microseconds divided by 1000
rounded upward. -/
theorem tv_to_msec_nonneg_spec (tv : Timeval)
    (hs : 0 ≤ tv.tv_sec) (hu : 0 ≤ tv.tv_usec) :
    (1000000 < tv.tv_usec ∨ MAX_SECONDS_IN_MSEC_LONG < tv.tv_sec →
      evutil_tv_to_msec_ tv = -1) ∧
    (tv.tv_usec ≤ 1000000 → tv.tv_sec ≤ MAX_SECONDS_IN_MSEC_LONG →
      0 ≤ evutil_tv_to_msec_ tv ∧
      tv.tv_sec * 1000000 + tv.tv_usec ≤ evutil_tv_to_msec_ tv * 1000 ∧
      evutil_tv_to_msec_ tv * 1000 < tv.tv_sec * 1000000 + tv.tv_usec + 1000) := by
  constructor
  · intro hbig
    unfold evutil_tv_to_msec_
    rw [if_pos hbig]
  · intro h1 h2
    have hguard : ¬(1000000 < tv.tv_usec ∨ MAX_SECONDS_IN_MSEC_LONG < tv.tv_sec) := by
      push_neg; exact ⟨h1, h2⟩
    unfold evutil_tv_to_msec_
    rw [if_neg hguard]
    have h999 : (0 : Int) ≤ tv.tv_usec + 999 := by omega
    have hdiv : Int.tdiv (tv.tv_usec + 999) 1000 = (tv.tv_usec + 999) / 1000 :=
      Int.tdiv_eq_ediv h999 (by omega)
    rw [hdiv]
    have hmod := Int.ediv_add_emod (tv.tv_usec + 999) 1000
    have hmn : 0 ≤ (tv.tv_usec + 999) % 1000 := Int.emod_nonneg _ (by omega)
    have hmx : (tv.tv_usec + 999) % 1000 < 1000 := Int.emod_lt_of_pos _ (by omega)
    refine ⟨?_, ?_, ?_⟩ <;> nlinarith [hmod, hmn, hmx, hs, hu]

/-- Witness for C2's amended theorem at the concrete interval 2 s 1500 µs. -/
theorem tv_to_msec_nonneg_spec_witness :
    0 ≤ (Timeval.mk 2 1500).tv_sec ∧ 0 ≤ (Timeval.mk 2 1500).tv_usec ∧
    ((1000000 < (Timeval.mk 2 1500).tv_usec ∨
        MAX_SECONDS_IN_MSEC_LONG < (Timeval.mk 2 1500).tv_sec →
      evutil_tv_to_msec_ ⟨2, 1500⟩ = -1) ∧
    ((Timeval.mk 2 1500).tv_usec ≤ 1000000 →
        (Timeval.mk 2 1500).tv_sec ≤ MAX_SECONDS_IN_MSEC_LONG →
      0 ≤ evutil_tv_to_msec_ ⟨2, 1500⟩ ∧
      (Timeval.mk 2 1500).tv_sec * 1000000 + (Timeval.mk 2 1500).tv_usec ≤
        evutil_tv_to_msec_ ⟨2, 1500⟩ * 1000 ∧
      evutil_tv_to_msec_ ⟨2, 1500⟩ * 1000 <
        (Timeval.mk 2 1500).tv_sec * 1000000 + (Timeval.mk 2 1500).tv_usec + 1000)) :=
  ⟨by decide, by decide, tv_to_msec_nonneg_spec ⟨2, 1500⟩ (by decide) (by decide)⟩

/-! ### `evutil_configure_monotonic_time_` : C4 -/

/-- **C4.**  Configuring the monotonic clock source never fails: for every
flags value and every outcome of the `clock_gettime` probes the function
returns `0`, and it leaves the timer either with a real monotonic clock id
(`CLOCK_MONOTONIC_COARSE` or `CLOCK_MONOTONIC`) or with
`monotonic_clock = -1` — the latter whenever `EV_MONOT_FALLBACK` was requested
or no monotonic clock is usable — and with `monotonic_clock = -1` every later
query takes the ratcheted `gettimeofday` emulation path. -/
theorem configure_monotonic_graceful (base : EvutilMonotonicTimer)
    (flags : Nat) (probe : ClockProbe) :
    (evutil_configure_monotonic_time_ base flags probe).2 = 0 ∧
    ((evutil_configure_monotonic_time_ base flags probe).1.monotonic_clock =
        CLOCK_MONOTONIC_COARSE ∨
      (evutil_configure_monotonic_time_ base flags probe).1.monotonic_clock =
        CLOCK_MONOTONIC ∨
      (evutil_configure_monotonic_time_ base flags probe).1.monotonic_clock = -1) ∧
    (flags &&& EV_MONOT_FALLBACK ≠ 0 →
      (evutil_configure_monotonic_time_ base flags probe).1.monotonic_clock = -1) ∧
    (probe.coarseOk = false → probe.monoOk = false →
      (evutil_configure_monotonic_time_ base flags probe).1.monotonic_clock = -1) ∧
    ((evutil_configure_monotonic_time_ base flags probe).1.monotonic_clock = -1 →
      ∀ tv : Timeval,
        evutil_gettime_monotonic_
            (evutil_configure_monotonic_time_ base flags probe).1 (some tv) none =
          ((adjust_monotonic_time
              (evutil_configure_monotonic_time_ base flags probe).1 tv).1,
            some (adjust_monotonic_time
              (evutil_configure_monotonic_time_ base flags probe).1 tv).2)) := by
  unfold evutil_configure_monotonic_time_
  have hgettime : ∀ b : EvutilMonotonicTimer, b.monotonic_clock = -1 →
      ∀ tv : Timeval, evutil_gettime_monotonic_ b (some tv) none =
        ((adjust_monotonic_time b tv).1, some (adjust_monotonic_time b tv).2) := by
    intro b hb tv
    unfold evutil_gettime_monotonic_
    rw [if_pos (by rw [hb]; decide)]
  by_cases hc : flags &&& EV_MONOT_PRECISE = 0 ∧ flags &&& EV_MONOT_FALLBACK = 0 ∧
      probe.coarseOk = true
  · rw [if_pos hc]
    refine ⟨rfl, Or.inl rfl, ?_, ?_, ?_⟩
    · intro h; exact absurd hc.2.1 h
    · intro hcoarse _
      rw [hc.2.2] at hcoarse
      exact Bool.noConfusion hcoarse
    · intro h
      have h' : CLOCK_MONOTONIC_COARSE = (-1 : Int) := h
      simp [CLOCK_MONOTONIC_COARSE] at h'
  · rw [if_neg hc]
    by_cases hm : flags &&& EV_MONOT_FALLBACK = 0 ∧ probe.monoOk = true
    · rw [if_pos hm]
      refine ⟨rfl, Or.inr (Or.inl rfl), ?_, ?_, ?_⟩
      · intro h; exact absurd hm.1 h
      · intro _ hmono
        rw [hm.2] at hmono
        exact Bool.noConfusion hmono
      · intro h
        have h' : CLOCK_MONOTONIC = (-1 : Int) := h
        simp [CLOCK_MONOTONIC] at h'
    · rw [if_neg hm]
      exact ⟨rfl, Or.inr (Or.inr rfl), fun _ => rfl, fun _ _ => rfl,
        fun _ tv => hgettime _ rfl tv⟩

/-- Witness for C4 at a concrete timer, flags and probe outcome: requesting
`EV_MONOT_FALLBACK` forces the ratcheted emulation even though both clocks
probe fine. -/
theorem configure_monotonic_graceful_witness :
    (evutil_configure_monotonic_time_
      { monotonic_clock := 0, adjust_monotonic_clock := ⟨0, 0⟩,
        last_time := ⟨0, 0⟩ } EV_MONOT_FALLBACK ⟨true, true⟩).1.monotonic_clock
      = -1 :=
  (configure_monotonic_graceful
    { monotonic_clock := 0, adjust_monotonic_clock := ⟨0, 0⟩,
      last_time := ⟨0, 0⟩ } EV_MONOT_FALLBACK ⟨true, true⟩).2.2.1 (by decide)

/-! ## Descriptor flag manipulation (`evutil.c`)

A descriptor's file-status flag word (`F_GETFL`/`F_SETFL`) and its
file-descriptor flag word (`F_GETFD`/`F_SETFD`) are modelled as `Nat` bit
masks.  `fcntl` outcomes are an oracle; on a failed `F_SETFL`/`F_SETFD` the
kernel leaves the word unchanged. -/

/-- `O_NONBLOCK` on Linux (octal 04000 = bit 11). -/
def O_NONBLOCK : Nat := 2048
/-- `FD_CLOEXEC` (bit 0). -/
def FD_CLOEXEC : Nat := 1

/-- Outcomes of the get and set `fcntl` calls a single
`evutil_make_socket_*` invocation may perform. -/
structure FcntlOracle where
  getOk : Bool
  setOk : Bool

/-- `evutil_make_socket_nonblocking` (`evutil.c:248-263`) acting on the
descriptor's file-status flag word `flags`.  Result: (return value, flag word
after the call, whether an `F_SETFL` call was performed). -/
def evutil_make_socket_nonblocking (o : FcntlOracle) (flags : Nat) :
    Int × Nat × Bool :=
  if o.getOk = false then (-1, flags, false)
  else if flags &&& O_NONBLOCK ≠ 0 then (0, flags, false)
  else if o.setOk then (0, flags ||| O_NONBLOCK, true)
  else (-1, flags, false)

/-- `evutil_make_socket_closeonexec` (`evutil.c:319-334`) acting on the
descriptor's file-descriptor flag word `flags`. -/
def evutil_make_socket_closeonexec (o : FcntlOracle) (flags : Nat) :
    Int × Nat × Bool :=
  if o.getOk = false then (-1, flags, false)
  else if flags &&& FD_CLOEXEC ≠ 0 then (0, flags, false)
  else if o.setOk then (0, flags ||| FD_CLOEXEC, true)
  else (-1, flags, false)

/-- Common core of the C9 proof: both functions are instances of
"get word; if bit `b` clear, set word to `word ||| 2^b`". -/
theorem setOneBit_spec (b : Nat) (o o' : FcntlOracle) (flags : Nat)
    (f : FcntlOracle → Nat → Int × Nat × Bool)
    (hf : ∀ oo ff, f oo ff =
      if oo.getOk = false then (-1, ff, false)
      else if ff &&& 2 ^ b ≠ 0 then (0, ff, false)
      else if oo.setOk then (0, ff ||| 2 ^ b, true)
      else (-1, ff, false)) :
    ((f o flags).1 = 0 →
      ((f o flags).2.1.testBit b = true ∧
        ∀ k, k ≠ b → (f o flags).2.1.testBit k = flags.testBit k)) ∧
    ((f o flags).1 ≠ 0 → (f o flags).2.1 = flags) ∧
    (flags.testBit b = true → o.getOk = true → f o flags = (0, flags, false)) ∧
    ((f o flags).1 = 0 → o'.getOk = true →
      f o' (f o flags).2.1 = (0, (f o flags).2.1, false)) := by
  have hbit : ∀ n : Nat, n &&& 2 ^ b ≠ 0 ↔ n.testBit b := by
    intro n
    rw [Nat.and_two_pow]
    rcases Bool.eq_false_or_eq_true (n.testBit b) with hb | hb <;> simp [hb]
  have hor_self : ∀ n : Nat, (n ||| 2 ^ b).testBit b = true := by
    intro n
    rw [Nat.testBit_or, Nat.testBit_two_pow]
    simp
  have hor_ne : ∀ (n k : Nat), k ≠ b → (n ||| 2 ^ b).testBit k = n.testBit k := by
    intro n k hk
    rw [Nat.testBit_or, Nat.testBit_two_pow_of_ne (Ne.symm hk)]
    simp
  have hchar : ∀ oo ff,
      f oo ff = (-1, ff, false) ∧ oo.getOk = false ∨
      f oo ff = (0, ff, false) ∧ oo.getOk = true ∧ ff.testBit b = true ∨
      f oo ff = (0, ff ||| 2 ^ b, true) ∧ oo.getOk = true ∧
        ff.testBit b = false ∧ oo.setOk = true ∨
      f oo ff = (-1, ff, false) ∧ oo.getOk = true ∧
        ff.testBit b = false ∧ oo.setOk = false := by
    intro oo ff
    rw [hf]
    split_ifs with h1 h2 h3
    · exact Or.inl ⟨rfl, h1⟩
    · exact Or.inr (Or.inl ⟨rfl, by simpa using h1, (hbit ff).mp h2⟩)
    · exact Or.inr (Or.inr (Or.inl ⟨rfl, by simpa using h1,
        by simpa [hbit] using h2, h3⟩))
    · exact Or.inr (Or.inr (Or.inr ⟨rfl, by simpa using h1,
        by simpa [hbit] using h2, by simpa using h3⟩))
  rcases hchar o flags with ⟨he, hg⟩ | ⟨he, hg, hb⟩ | ⟨he, hg, hb, hs⟩ |
    ⟨he, hg, hb, hs⟩
  · rw [he]
    refine ⟨fun h => by simp at h, fun _ => rfl, ?_, ?_⟩
    · intro _ hgo; rw [hg] at hgo; exact Bool.noConfusion hgo
    · intro h; simp at h
  · rw [he]
    refine ⟨fun _ => ⟨hb, fun _ _ => rfl⟩, fun h => absurd rfl h,
      fun _ _ => rfl, ?_⟩
    intro _ hgo'
    rcases hchar o' flags with ⟨he', hg'⟩ | ⟨he', _, _⟩ | ⟨_, _, hb', _⟩ |
      ⟨_, _, hb', _⟩
    · rw [hgo'] at hg'; exact Bool.noConfusion hg'
    · exact he'
    · rw [hb] at hb'; exact Bool.noConfusion hb'
    · rw [hb] at hb'; exact Bool.noConfusion hb'
  · rw [he]
    refine ⟨fun _ => ⟨hor_self flags, fun k hk => hor_ne flags k hk⟩,
      fun h => absurd rfl h, ?_, ?_⟩
    · intro hbt _; rw [hbt] at hb; exact Bool.noConfusion hb
    · intro _ hgo'
      rcases hchar o' (flags ||| 2 ^ b) with ⟨he', hg'⟩ | ⟨he', _, _⟩ |
        ⟨_, _, hb', _⟩ | ⟨_, _, hb', _⟩
      · rw [hgo'] at hg'; exact Bool.noConfusion hg'
      · exact he'
      · rw [hor_self flags] at hb'; exact Bool.noConfusion hb'
      · rw [hor_self flags] at hb'; exact Bool.noConfusion hb'
  · rw [he]
    refine ⟨fun h => by simp at h, fun _ => rfl, ?_, ?_⟩
    · intro hbt _; rw [hbt] at hb; exact Bool.noConfusion hb
    · intro h; simp at h

/-- **C9.**  `evutil_make_socket_nonblocking` and
`evutil_make_socket_closeonexec` are idempotent and frame-preserving on the
descriptor's flag word: on success (`return 0`) the target bit (`O_NONBLOCK`
resp. `FD_CLOEXEC`) is set and every other bit of the flag word is unchanged;
on failure the word is untouched; when the bit is already set no `F_SETFL` /
`F_SETFD` call is performed at all and the function still returns `0`; in
particular the second of two consecutive calls (whose `F_GETFL`/`F_GETFD`
succeeds) modifies nothing and returns `0`. -/
theorem make_socket_flags_frame (o o' : FcntlOracle) (flags fdflags : Nat) :
    (((evutil_make_socket_nonblocking o flags).1 = 0 →
      ((evutil_make_socket_nonblocking o flags).2.1.testBit 11 = true ∧
        ∀ k, k ≠ 11 → (evutil_make_socket_nonblocking o flags).2.1.testBit k =
          flags.testBit k)) ∧
    ((evutil_make_socket_nonblocking o flags).1 ≠ 0 →
      (evutil_make_socket_nonblocking o flags).2.1 = flags) ∧
    (flags.testBit 11 = true → o.getOk = true →
      evutil_make_socket_nonblocking o flags = (0, flags, false)) ∧
    ((evutil_make_socket_nonblocking o flags).1 = 0 → o'.getOk = true →
      evutil_make_socket_nonblocking o'
          (evutil_make_socket_nonblocking o flags).2.1 =
        (0, (evutil_make_socket_nonblocking o flags).2.1, false))) ∧
    (((evutil_make_socket_closeonexec o fdflags).1 = 0 →
      ((evutil_make_socket_closeonexec o fdflags).2.1.testBit 0 = true ∧
        ∀ k, k ≠ 0 → (evutil_make_socket_closeonexec o fdflags).2.1.testBit k =
          fdflags.testBit k)) ∧
    ((evutil_make_socket_closeonexec o fdflags).1 ≠ 0 →
      (evutil_make_socket_closeonexec o fdflags).2.1 = fdflags) ∧
    (fdflags.testBit 0 = true → o.getOk = true →
      evutil_make_socket_closeonexec o fdflags = (0, fdflags, false)) ∧
    ((evutil_make_socket_closeonexec o fdflags).1 = 0 → o'.getOk = true →
      evutil_make_socket_closeonexec o'
          (evutil_make_socket_closeonexec o fdflags).2.1 =
        (0, (evutil_make_socket_closeonexec o fdflags).2.1, false))) := by
  constructor
  · exact setOneBit_spec 11 o o' flags evutil_make_socket_nonblocking
      (fun oo ff => by
        show evutil_make_socket_nonblocking oo ff = _
        unfold evutil_make_socket_nonblocking
        norm_num [O_NONBLOCK])
  · exact setOneBit_spec 0 o o' fdflags evutil_make_socket_closeonexec
      (fun oo ff => by
        show evutil_make_socket_closeonexec oo ff = _
        unfold evutil_make_socket_closeonexec
        norm_num [FD_CLOEXEC])

/-- Witness for C9: concrete run on flag word `2` (some unrelated flag set):
the call adds `O_NONBLOCK` and the second call is a no-op. -/
theorem make_socket_flags_frame_witness :
    (evutil_make_socket_nonblocking ⟨true, true⟩ 2).1 = 0 ∧
    (evutil_make_socket_nonblocking ⟨true, true⟩ 2).2.1.testBit 11 = true ∧
    (evutil_make_socket_nonblocking ⟨true, true⟩ 2).2.1.testBit 1 =
      (2 : Nat).testBit 1 ∧
    evutil_make_socket_nonblocking ⟨true, true⟩
        (evutil_make_socket_nonblocking ⟨true, true⟩ 2).2.1 =
      (0, (evutil_make_socket_nonblocking ⟨true, true⟩ 2).2.1, false) := by
  have h := make_socket_flags_frame ⟨true, true⟩ ⟨true, true⟩ 2 0
  have h0 : (evutil_make_socket_nonblocking ⟨true, true⟩ 2).1 = 0 := by decide
  exact ⟨h0, (h.1.1 h0).1, (h.1.1 h0).2 1 (by decide), h.1.2.2.2 h0 rfl⟩

/-! ## `evutil_make_internal_pipe_` (`evutil.c:2021-2065`) : C3

Kernel descriptor table: an association list from descriptor number to the
pair (non-blocking flag, close-on-exec flag), plus the next number the kernel
will hand out.  `pipe2`/`pipe`/`socketpair` allocate two fresh descriptors
(`pipe2` with both flags already set, the others with neither);
`evutil_fast_socket_nonblocking` / `evutil_fast_socket_closeonexec`
(`evutil.c:269-277` and `evutil.c:340-348`) perform one `fcntl` set call;
`close` removes a descriptor.  Which system calls succeed is an oracle. -/

/-- Kernel state: open descriptors with their (nonblock, cloexec) flags. -/
structure Sys where
  fds : List (Nat × (Bool × Bool))
  next : Nat

/-- Well-formed kernel state: every open descriptor is below `next`. -/
def SysWF (s : Sys) : Prop := ∀ p ∈ s.fds, p.1 < s.next

instance : DecidablePred SysWF := fun s => by
  unfold SysWF; infer_instance

/-- Allocate a fresh descriptor with the given flags. -/
def allocFd (s : Sys) (st : Bool × Bool) : Sys × Nat :=
  (⟨(s.next, st) :: s.fds, s.next + 1⟩, s.next)

/-- `close(fd)`. -/
def closeFd (s : Sys) (fd : Nat) : Sys :=
  ⟨s.fds.filter (fun p => p.1 != fd), s.next⟩

/-- Entry update performed by `fcntl(fd, F_SETFL, O_NONBLOCK)`. -/
def updNB (fd : Nat) (p : Nat × (Bool × Bool)) : Nat × (Bool × Bool) :=
  if p.1 = fd then (p.1, (true, p.2.2)) else p

/-- Entry update performed by `fcntl(fd, F_SETFD, FD_CLOEXEC)`. -/
def updCE (fd : Nat) (p : Nat × (Bool × Bool)) : Nat × (Bool × Bool) :=
  if p.1 = fd then (p.1, (p.2.1, true)) else p

/-- `fcntl(fd, F_SETFL, O_NONBLOCK)` as performed by
`evutil_fast_socket_nonblocking`: sets the status-flag word to exactly
`O_NONBLOCK` (the descriptor was created with no status flags). -/
def sysSetNonblock (s : Sys) (fd : Nat) : Sys :=
  ⟨s.fds.map (updNB fd), s.next⟩

/-- `fcntl(fd, F_SETFD, FD_CLOEXEC)` as performed by
`evutil_fast_socket_closeonexec`. -/
def sysSetCloexec (s : Sys) (fd : Nat) : Sys :=
  ⟨s.fds.map (updCE fd), s.next⟩

/-- `evutil_fast_socket_nonblocking` (`evutil.c:269-277`): returns `0` and sets
the flag when the `fcntl` succeeds, else returns `-1` leaving the state as is. -/
def evutil_fast_socket_nonblocking (ok : Bool) (s : Sys) (fd : Nat) :
    Sys × Int :=
  if ok then (sysSetNonblock s fd, 0) else (s, -1)

/-- `evutil_fast_socket_closeonexec` (`evutil.c:340-348`). -/
def evutil_fast_socket_closeonexec (ok : Bool) (s : Sys) (fd : Nat) :
    Sys × Int :=
  if ok then (sysSetCloexec s fd, 0) else (s, -1)

/-- Success/failure the kernel chooses for each system call
`evutil_make_internal_pipe_` may issue.  `f1..f4` are the four `fcntl` calls
of the `pipe` branch in program order, `g1..g4` those of the `socketpair`
branch. -/
structure PipeOracle where
  pipe2Ok : Bool
  pipeOk : Bool
  socketpairOk : Bool
  f1 : Bool
  f2 : Bool
  f3 : Bool
  f4 : Bool
  g1 : Bool
  g2 : Bool
  g3 : Bool
  g4 : Bool

/-- The flag-setup sequence shared by the `pipe` and `socketpair` branches
(`evutil.c:2036-2045` / `2052-2061`): the four `fcntl`s short-circuit in
program order; on the first failure both descriptors are closed and
`fd[0] = fd[1] = -1`. -/
def pipeFlagSetup (o1 o2 o3 o4 : Bool) (s : Sys) (a b : Nat) :
    Sys × Int × Int × Int :=
  let fail := fun s : Sys => (closeFd (closeFd s a) b, (-1 : Int), (-1 : Int), (-1 : Int))
  let r1 := evutil_fast_socket_nonblocking o1 s a
  if r1.2 < 0 then fail r1.1
  else
    let r2 := evutil_fast_socket_nonblocking o2 r1.1 b
    if r2.2 < 0 then fail r2.1
    else
      let r3 := evutil_fast_socket_closeonexec o3 r2.1 a
      if r3.2 < 0 then fail r3.1
      else
        let r4 := evutil_fast_socket_closeonexec o4 r3.1 b
        if r4.2 < 0 then fail r4.1
        else (r4.1, 0, (a : Int), (b : Int))

/-- `evutil_make_internal_pipe_` (`evutil.c:2021-2065`).  Result:
(kernel state, return value, fd[0], fd[1]). -/
def evutil_make_internal_pipe_ (o : PipeOracle) (s : Sys) :
    Sys × Int × Int × Int :=
  if o.pipe2Ok then
    let r1 := allocFd s (true, true)
    let r2 := allocFd r1.1 (true, true)
    (r2.1, 0, (r1.2 : Int), (r2.2 : Int))
  else if o.pipeOk then
    let r1 := allocFd s (false, false)
    let r2 := allocFd r1.1 (false, false)
    pipeFlagSetup o.f1 o.f2 o.f3 o.f4 r2.1 r1.2 r2.2
  else if o.socketpairOk then
    let r1 := allocFd s (false, false)
    let r2 := allocFd r1.1 (false, false)
    pipeFlagSetup o.g1 o.g2 o.g3 o.g4 r2.1 r1.2 r2.2
  else
    (s, -1, -1, -1)

/-! ### Bookkeeping lemmas about the kernel model -/

theorem updNB_self (fd : Nat) (x : Bool × Bool) :
    updNB fd (fd, x) = (fd, (true, x.2)) := by
  simp [updNB]

theorem updNB_ne {q fd : Nat} (x : Bool × Bool) (h : q ≠ fd) :
    updNB fd (q, x) = (q, x) := by
  simp [updNB, h]

theorem updCE_self (fd : Nat) (x : Bool × Bool) :
    updCE fd (fd, x) = (fd, (x.1, true)) := by
  simp [updCE]

theorem updCE_ne {q fd : Nat} (x : Bool × Bool) (h : q ≠ fd) :
    updCE fd (q, x) = (q, x) := by
  simp [updCE, h]

theorem map_updNB_skip {L : List (Nat × (Bool × Bool))} {fd : Nat}
    (h : ∀ p ∈ L, p.1 ≠ fd) : L.map (updNB fd) = L := by
  induction L with
  | nil => rfl
  | cons q L ih =>
      rw [List.map_cons, ih (fun p hp => h p (List.mem_cons_of_mem q hp))]
      rw [show updNB fd q = q from by
        simp [updNB, h q (List.mem_cons_self q L)]]

theorem map_updCE_skip {L : List (Nat × (Bool × Bool))} {fd : Nat}
    (h : ∀ p ∈ L, p.1 ≠ fd) : L.map (updCE fd) = L := by
  induction L with
  | nil => rfl
  | cons q L ih =>
      rw [List.map_cons, ih (fun p hp => h p (List.mem_cons_of_mem q hp))]
      rw [show updCE fd q = q from by
        simp [updCE, h q (List.mem_cons_self q L)]]

theorem filter_keyNe_skip {L : List (Nat × (Bool × Bool))} {fd : Nat}
    (h : ∀ p ∈ L, p.1 ≠ fd) : L.filter (fun p => p.1 != fd) = L :=
  List.filter_eq_self.mpr (fun p hp => by
    simpa using h p hp)

/-- Closing the two freshly allocated descriptors of a two-alloc state
restores the original descriptor list. -/
theorem close_two_fresh (L : List (Nat × (Bool × Bool))) (n m : Nat)
    (x y : Bool × Bool) (hL : ∀ p ∈ L, p.1 < n) :
    closeFd (closeFd ⟨(n + 1, x) :: (n, y) :: L, m⟩ n) (n + 1) =
      ⟨L, m⟩ := by
  have h1 : ∀ p ∈ L, p.1 ≠ n := fun p hp => by have := hL p hp; omega
  have h2 : ∀ p ∈ L, p.1 ≠ n + 1 := fun p hp => by have := hL p hp; omega
  unfold closeFd
  rw [show (⟨(n + 1, x) :: (n, y) :: L, m⟩ : Sys).fds =
    (n + 1, x) :: (n, y) :: L from rfl]
  rw [List.filter_cons_of_pos (by simp), List.filter_cons_of_neg (by simp),
    List.filter_cons_of_neg (by simp), filter_keyNe_skip h1,
    filter_keyNe_skip h2]

/-- `pipeFlagSetup` on the state produced by two fresh allocations: either all
four `fcntl`s succeed and both descriptors end with both flags set, or the
first failure closes both fresh descriptors, restores the original descriptor
list, and yields `(-1, -1, -1)`. -/
theorem pipeFlagSetup_spec (o1 o2 o3 o4 : Bool)
    (L : List (Nat × (Bool × Bool))) (n : Nat) (st1 st2 : Bool × Bool)
    (hL : ∀ p ∈ L, p.1 < n) :
    (o1 = true ∧ o2 = true ∧ o3 = true ∧ o4 = true ∧
      pipeFlagSetup o1 o2 o3 o4 ⟨(n + 1, st2) :: (n, st1) :: L, n + 2⟩ n
          (n + 1) =
        (⟨(n + 1, (true, true)) :: (n, (true, true)) :: L, n + 2⟩, 0,
          (n : Int), ((n + 1 : Nat) : Int))) ∨
    ((o1 = false ∨ o2 = false ∨ o3 = false ∨ o4 = false) ∧
      pipeFlagSetup o1 o2 o3 o4 ⟨(n + 1, st2) :: (n, st1) :: L, n + 2⟩ n
          (n + 1) =
        (⟨L, n + 2⟩, -1, -1, -1)) := by
  have h1 : ∀ p ∈ L, p.1 ≠ n := fun p hp => by have := hL p hp; omega
  have h2 : ∀ p ∈ L, p.1 ≠ n + 1 := fun p hp => by have := hL p hp; omega
  have hne10 : (n + 1 : Nat) ≠ n := by omega
  have hne01 : (n : Nat) ≠ n + 1 := by omega
  -- the four intermediate states, step by step
  have eNB0 : sysSetNonblock ⟨(n + 1, st2) :: (n, st1) :: L, n + 2⟩ n =
      ⟨(n + 1, st2) :: (n, (true, st1.2)) :: L, n + 2⟩ := by
    simp only [sysSetNonblock, List.map_cons]
    rw [updNB_ne st2 hne10, updNB_self, map_updNB_skip h1]
  have eNB1 : sysSetNonblock ⟨(n + 1, st2) :: (n, (true, st1.2)) :: L, n + 2⟩
      (n + 1) =
      ⟨(n + 1, (true, st2.2)) :: (n, (true, st1.2)) :: L, n + 2⟩ := by
    simp only [sysSetNonblock, List.map_cons]
    rw [updNB_ne _ hne01, updNB_self, map_updNB_skip h2]
  have eCE0 : sysSetCloexec
      ⟨(n + 1, (true, st2.2)) :: (n, (true, st1.2)) :: L, n + 2⟩ n =
      ⟨(n + 1, (true, st2.2)) :: (n, (true, true)) :: L, n + 2⟩ := by
    simp only [sysSetCloexec, List.map_cons]
    rw [updCE_ne _ hne10, updCE_self, map_updCE_skip h1]
  have eCE1 : sysSetCloexec
      ⟨(n + 1, (true, st2.2)) :: (n, (true, true)) :: L, n + 2⟩ (n + 1) =
      ⟨(n + 1, (true, true)) :: (n, (true, true)) :: L, n + 2⟩ := by
    simp only [sysSetCloexec, List.map_cons]
    rw [updCE_ne _ hne01, updCE_self, map_updCE_skip h2]
  cases o1 with
  | false =>
      refine Or.inr ⟨Or.inl rfl, ?_⟩
      show (closeFd (closeFd ⟨(n + 1, st2) :: (n, st1) :: L, n + 2⟩ n)
        (n + 1), -1, -1, -1) = _
      rw [close_two_fresh L n (n + 2) st2 st1 hL]
  | true =>
  cases o2 with
  | false =>
      refine Or.inr ⟨Or.inr (Or.inl rfl), ?_⟩
      show (closeFd (closeFd (sysSetNonblock
        ⟨(n + 1, st2) :: (n, st1) :: L, n + 2⟩ n) n) (n + 1), -1, -1, -1) = _
      rw [eNB0, close_two_fresh L n (n + 2) st2 (true, st1.2) hL]
  | true =>
  cases o3 with
  | false =>
      refine Or.inr ⟨Or.inr (Or.inr (Or.inl rfl)), ?_⟩
      show (closeFd (closeFd (sysSetNonblock (sysSetNonblock
        ⟨(n + 1, st2) :: (n, st1) :: L, n + 2⟩ n) (n + 1)) n) (n + 1),
        -1, -1, -1) = _
      rw [eNB0, eNB1,
        close_two_fresh L n (n + 2) (true, st2.2) (true, st1.2) hL]
  | true =>
  cases o4 with
  | false =>
      refine Or.inr ⟨Or.inr (Or.inr (Or.inr rfl)), ?_⟩
      show (closeFd (closeFd (sysSetCloexec (sysSetNonblock (sysSetNonblock
        ⟨(n + 1, st2) :: (n, st1) :: L, n + 2⟩ n) (n + 1)) n) n) (n + 1),
        -1, -1, -1) = _
      rw [eNB0, eNB1, eCE0,
        close_two_fresh L n (n + 2) (true, st2.2) (true, true) hL]
  | true =>
      refine Or.inl ⟨rfl, rfl, rfl, rfl, ?_⟩
      show (sysSetCloexec (sysSetCloexec (sysSetNonblock (sysSetNonblock
        ⟨(n + 1, st2) :: (n, st1) :: L, n + 2⟩ n) (n + 1)) n) (n + 1),
        0, (n : Int), ((n + 1 : Nat) : Int)) = _
      rw [eNB0, eNB1, eCE0, eCE1]

/-- Postcondition of `evutil_make_internal_pipe_` relative to the descriptor
list `orig` the kernel had before the call: the return value is `0` or `-1`;
on `0` the two returned descriptors are distinct open descriptors carrying
both the non-blocking and the close-on-exec flag; on `-1` the descriptor
table is exactly `orig` again (every descriptor the call created has been
closed) and both out-descriptors are `-1`. -/
def PipePost (orig : List (Nat × (Bool × Bool))) (r : Sys × Int × Int × Int) : Prop :=
  (r.2.1 = 0 ∨ r.2.1 = -1) ∧
  (r.2.1 = 0 → ∃ a b : Nat, a ≠ b ∧ r.2.2.1 = (a : Int) ∧ r.2.2.2 = (b : Int) ∧
    (a, (true, true)) ∈ r.1.fds ∧ (b, (true, true)) ∈ r.1.fds) ∧
  (r.2.1 = -1 → r.1.fds = orig ∧ r.2.2.1 = -1 ∧ r.2.2.2 = -1)

/-- **C3.**  `evutil_make_internal_pipe_` either succeeds establishing all the
promised descriptor properties or fails atomically, for every well-formed
kernel state and every choice of system-call outcomes (see `PipePost`). -/
theorem make_internal_pipe_spec (o : PipeOracle) (s : Sys) (hWF : SysWF s) :
    PipePost s.fds (evutil_make_internal_pipe_ o s) := by
  obtain ⟨L, n⟩ := s
  have hL : ∀ p ∈ L, p.1 < n := hWF
  have hstep : ∀ o1 o2 o3 o4 : Bool,
      PipePost L (pipeFlagSetup o1 o2 o3 o4
        ⟨(n + 1, (false, false)) :: (n, (false, false)) :: L, n + 2⟩ n (n + 1)) := by
    intro o1 o2 o3 o4
    rcases pipeFlagSetup_spec o1 o2 o3 o4 L n (false, false) (false, false) hL
      with ⟨_, _, _, _, he⟩ | ⟨_, he⟩
    · rw [PipePost, he]
      refine ⟨Or.inl rfl, ?_, ?_⟩
      · intro _
        exact ⟨n, n + 1, by omega, rfl, rfl,
          List.mem_cons_of_mem _ (List.mem_cons_self _ _),
          List.mem_cons_self _ _⟩
      · intro h; simp at h
    · rw [PipePost, he]
      refine ⟨Or.inr rfl, ?_, fun _ => ⟨rfl, rfl, rfl⟩⟩
      intro h; simp at h
  by_cases hp2 : o.pipe2Ok
  · have he : evutil_make_internal_pipe_ o ⟨L, n⟩ =
        (⟨(n + 1, (true, true)) :: (n, (true, true)) :: L, n + 2⟩, 0,
          (n : Int), ((n + 1 : Nat) : Int)) := by
      unfold evutil_make_internal_pipe_
      rw [if_pos hp2]
      rfl
    rw [PipePost, he]
    refine ⟨Or.inl rfl, ?_, ?_⟩
    · intro _
      exact ⟨n, n + 1, by omega, rfl, rfl,
        List.mem_cons_of_mem _ (List.mem_cons_self _ _),
        List.mem_cons_self _ _⟩
    · intro h; simp at h
  · by_cases hp : o.pipeOk
    · have he : evutil_make_internal_pipe_ o ⟨L, n⟩ =
          pipeFlagSetup o.f1 o.f2 o.f3 o.f4
            ⟨(n + 1, (false, false)) :: (n, (false, false)) :: L, n + 2⟩ n
            (n + 1) := by
        unfold evutil_make_internal_pipe_
        rw [if_neg hp2, if_pos hp]
        rfl
      rw [he]
      exact hstep o.f1 o.f2 o.f3 o.f4
    · by_cases hsp : o.socketpairOk
      · have he : evutil_make_internal_pipe_ o ⟨L, n⟩ =
            pipeFlagSetup o.g1 o.g2 o.g3 o.g4
              ⟨(n + 1, (false, false)) :: (n, (false, false)) :: L, n + 2⟩ n
              (n + 1) := by
          unfold evutil_make_internal_pipe_
          rw [if_neg hp2, if_neg hp, if_pos hsp]
          rfl
        rw [he]
        exact hstep o.g1 o.g2 o.g3 o.g4
      · have he : evutil_make_internal_pipe_ o ⟨L, n⟩ = (⟨L, n⟩, -1, -1, -1) := by
          unfold evutil_make_internal_pipe_
          rw [if_neg hp2, if_neg hp, if_neg hsp]
        rw [PipePost, he]
        refine ⟨Or.inr rfl, ?_, fun _ => ⟨rfl, rfl, rfl⟩⟩
        intro h; simp at h

/-- Witness for C3: a kernel that refuses `pipe2` and fails the third `fcntl`
of the `pipe` branch; the call reports `-1`, restores the descriptor table
and sets both out-descriptors to `-1`. -/
theorem make_internal_pipe_spec_witness :
    PipePost [(0, (false, false))]
      (evutil_make_internal_pipe_
        ⟨false, true, true, true, true, false, true, true, true, true, true⟩
        ⟨[(0, (false, false))], 1⟩) :=
  make_internal_pipe_spec
    ⟨false, true, true, true, true, false, true, true, true, true, true⟩
    ⟨[(0, (false, false))], 1⟩ (by decide)

/-! ## `evutil_vsnprintf` / `evutil_snprintf` (`evutil.c:1264-1284`) : C8

The buffer is a list of bytes whose length is the storage backing `buf`; the
call operates on its first `buflen` cells.  The underlying C `vsnprintf` is an
oracle: it reports some `int` return value and writes some byte sequence, of
which at most `buflen` bytes land in the buffer (C `vsnprintf` never writes
past `size`).  After it returns, the wrapper unconditionally stores a NUL at
`buf[buflen-1]`. -/

/-- What the underlying `vsnprintf` would do for the given format/arguments. -/
structure VsnprintfOracle where
  ret : Int
  bytes : List Nat

/-- `evutil_vsnprintf` (`evutil.c:1275-1284`): returns the pair
(return value, buffer contents after the call). -/
def evutil_vsnprintf (o : VsnprintfOracle) (buf : List Nat) (buflen : Nat) :
    Int × List Nat :=
  if buflen = 0 then (0, buf)
  else
    let w := o.bytes.take buflen
    let buf1 := w ++ buf.drop w.length
    (o.ret, buf1.set (buflen - 1) 0)

/-- `evutil_snprintf` (`evutil.c:1264-1273`): varargs wrapper that just
delegates to `evutil_vsnprintf`. -/
def evutil_snprintf (o : VsnprintfOracle) (buf : List Nat) (buflen : Nat) :
    Int × List Nat :=
  evutil_vsnprintf o buf buflen

/-- **C8.**  `evutil_vsnprintf` never touches a zero-length buffer (it
returns `0` with the buffer unchanged) and, for `buflen > 0` with at least
`buflen` bytes of backing storage, always leaves `buf[buflen-1] = '\0'`
whatever the underlying `vsnprintf` produced — without writing outside the
buffer (the storage length is unchanged, and bytes at positions `≥ buflen`
are untouched).  `evutil_snprintf` inherits the same guarantee verbatim. -/
theorem vsnprintf_always_terminated (o : VsnprintfOracle) (buf : List Nat)
    (buflen : Nat) (hlen : buflen ≤ buf.length) :
    (evutil_vsnprintf o buf 0 = (0, buf)) ∧
    (0 < buflen →
      (evutil_vsnprintf o buf buflen).2.getD (buflen - 1) 1 = 0 ∧
      (evutil_vsnprintf o buf buflen).2.length = buf.length ∧
      ∀ k, buflen ≤ k →
        (evutil_vsnprintf o buf buflen).2.getD k 1 = buf.getD k 1) ∧
    (evutil_snprintf o buf buflen = evutil_vsnprintf o buf buflen) := by
  refine ⟨by rw [evutil_vsnprintf, if_pos rfl], ?_, rfl⟩
  intro hpos
  have hne : buflen ≠ 0 := by omega
  rw [evutil_vsnprintf, if_neg hne]
  have hwle : (o.bytes.take buflen).length ≤ buflen := by
    rw [List.length_take]
    omega
  have hlen1 : ((o.bytes.take buflen) ++
      buf.drop (o.bytes.take buflen).length).length = buf.length := by
    simp only [List.length_append, List.length_drop]
    omega
  have hlen2 : (((o.bytes.take buflen) ++
      buf.drop (o.bytes.take buflen).length).set (buflen - 1) 0).length =
      buf.length := by
    rw [List.length_set, hlen1]
  refine ⟨?_, hlen2, ?_⟩
  · have hidx : buflen - 1 < ((o.bytes.take buflen) ++
        buf.drop (o.bytes.take buflen).length).length := by omega
    rw [List.getD_eq_getElem?_getD, List.getElem?_set_self hidx]
    rfl
  · intro k hk
    rw [List.getD_eq_getElem?_getD, List.getD_eq_getElem?_getD,
      List.getElem?_set_ne (by omega),
      List.getElem?_append_right (by omega), List.getElem?_drop]
    congr 2
    omega

/-- Witness for C8: concrete truncating call into a 4-byte buffer. -/
theorem vsnprintf_always_terminated_witness :
    (4 : Nat) ≤ ([65, 65, 65, 65, 90] : List Nat).length ∧
    (evutil_vsnprintf ⟨7, [104, 105, 33, 104, 105, 33, 0]⟩
        [65, 65, 65, 65, 90] 4).2.getD 3 1 = 0 ∧
    (evutil_vsnprintf ⟨7, [104, 105, 33, 104, 105, 33, 0]⟩
        [65, 65, 65, 65, 90] 4).2.getD 4 1 = 90 :=
  ⟨by decide,
    ((vsnprintf_always_terminated ⟨7, [104, 105, 33, 104, 105, 33, 0]⟩
      [65, 65, 65, 65, 90] 4 (by decide)).2.1 (by decide)).1,
    by
      have h := ((vsnprintf_always_terminated ⟨7, [104, 105, 33, 104, 105, 33, 0]⟩
        [65, 65, 65, 65, 90] 4 (by decide)).2.1 (by decide)).2.2 4 (by decide)
      rw [h]
      rfl⟩

/-! ## The secure PRNG (`arc4random.c`, `evutil_rand.c`) : C6

The C code keeps a single set of `static` globals: `rs` (the ARC4 stream),
`rs_initialized`, `arc4_count` and `arc4_stir_pid`; every caller of
`evutil_secure_rng_get_bytes` goes through `ev_arc4random_buf` →
`arc4random_buf` operating on those globals.  The embedding threads that
global record explicitly, so "process-wide hidden state" becomes an explicit
`RngGlobals` value that every call consumes and returns.  Bytes are `Nat`
values with `% 256` wherever the C `unsigned char` arithmetic wraps.  The
platform entropy the seeding paths read (`getrandom`, `/dev/urandom`,
`/proc/sys/kernel/random/uuid`) is an input: each `arc4_stir` consumes the
next element of an entropy schedule, a list of blocks that that call's
`arc4_seed` feeds to `arc4_addrandom` (the empty list = every source
failed). -/

/-- `struct arc4_stream` (`arc4random.c:60-64`). -/
structure Arc4Stream where
  i : Nat
  j : Nat
  s : List Nat
  deriving Repr, DecidableEq

/-- `arc4_init` (`arc4random.c:73-82`). -/
def arc4_init : Arc4Stream := ⟨0, 0, List.range 256⟩

/-- `arc4_getbyte` (`arc4random.c:297-309`). -/
def arc4_getbyte (st : Arc4Stream) : Arc4Stream × Nat :=
  let i := (st.i + 1) % 256
  let si := st.s.getD i 0
  let j := (st.j + si) % 256
  let sj := st.s.getD j 0
  let s := (st.s.set i sj).set j si
  (⟨i, j, s⟩, s.getD ((si + sj) % 256) 0)

/-- One iteration of the `arc4_addrandom` loop (`arc4random.c:91-97`). -/
def addrandomStep (dat : List Nat) (st : Arc4Stream) (n : Nat) : Arc4Stream :=
  let i := (st.i + 1) % 256
  let si := st.s.getD i 0
  let j := (st.j + si + dat.getD (n % dat.length) 0) % 256
  ⟨i, j, (st.s.set i (st.s.getD j 0)).set j si⟩

/-- `arc4_addrandom` (`arc4random.c:84-99`): `rs.i--`, 256 mixing steps,
then `rs.j = rs.i`. -/
def arc4_addrandom (st : Arc4Stream) (dat : List Nat) : Arc4Stream :=
  let st0 : Arc4Stream := ⟨(st.i + 255) % 256, st.j, st.s⟩
  let st1 := (List.range 256).foldl (addrandomStep dat) st0
  ⟨st1.i, st1.i, st1.s⟩

/-- The keystream-discard loop of `arc4_stir` (`arc4random.c:276-277`). -/
def arc4_discard : Nat → Arc4Stream → Arc4Stream
  | 0, st => st
  | n + 1, st => arc4_discard n (arc4_getbyte st).1

/-- `BYTES_BEFORE_RESEED` (`arc4random.c:58`). -/
def BYTES_BEFORE_RESEED : Int := 1600000

/-- The `static` globals of `arc4random.c` (`rs_initialized`, `rs`,
`arc4_count`, `arc4_stir_pid`), together with the entropy schedule the
seeding paths will read. -/
structure RngGlobals where
  rs_initialized : Bool
  rs : Arc4Stream
  arc4_count : Int
  arc4_stir_pid : Nat
  entropy : List (List (List Nat))
  deriving Repr, DecidableEq

/-- `arc4_seed` (`arc4random.c:228-243`): feeds the blocks the available
sources produced through `arc4_addrandom`; reports failure when no source
yielded anything. -/
def arc4_seed (g : RngGlobals) : RngGlobals × Bool :=
  match g.entropy with
  | [] => (g, false)
  | blocks :: rest =>
      ({ g with rs := blocks.foldl arc4_addrandom g.rs, entropy := rest },
        !blocks.isEmpty)

/-- `arc4_stir` (`arc4random.c:245-282`). -/
def arc4_stir (g : RngGlobals) : RngGlobals × Int :=
  let g1 := if g.rs_initialized then g
    else { g with rs := arc4_init, rs_initialized := true }
  let r := arc4_seed g1
  let g2 := r.1
  if r.2 = false then (g2, -1)
  else
    ({ g2 with
        rs := arc4_discard (12 * 256) (g2.rs),
        arc4_count := BYTES_BEFORE_RESEED }, 0)

/-- `arc4_stir_if_needed` (`arc4random.c:285-295`). -/
def arc4_stir_if_needed (pid : Nat) (g : RngGlobals) : RngGlobals :=
  if g.arc4_count ≤ 0 ∨ g.rs_initialized = false ∨ g.arc4_stir_pid ≠ pid then
    (arc4_stir { g with arc4_stir_pid := pid }).1
  else g

/-- The `while (n--)` loop of `arc4random_buf` (`arc4random.c:347-351`):
each step decrements `arc4_count`, re-stirs when it hits zero, and stores the
next keystream byte; the first byte generated lands at the highest index, so
the accumulator (final buffer contents) is built by prepending. -/
def arc4random_buf_loop : Nat → RngGlobals → List Nat → RngGlobals × List Nat
  | 0, g, acc => (g, acc)
  | n + 1, g, acc =>
      let g1 := { g with arc4_count := g.arc4_count - 1 }
      let g2 := if g1.arc4_count ≤ 0 then (arc4_stir g1).1 else g1
      let r := arc4_getbyte g2.rs
      arc4random_buf_loop n { g2 with rs := r.1 } (r.2 :: acc)

/-- `arc4random_buf` (`arc4random.c:341-353`): stir if needed, then generate
`n` bytes.  Result: (new globals, buffer contents). -/
def arc4random_buf (pid : Nat) (g : RngGlobals) (n : Nat) :
    RngGlobals × List Nat :=
  arc4random_buf_loop n (arc4_stir_if_needed pid g) []

/-- `ev_arc4random_buf` (`evutil_rand.c`): direct delegation. -/
def ev_arc4random_buf (pid : Nat) (g : RngGlobals) (n : Nat) :
    RngGlobals × List Nat :=
  arc4random_buf pid g n

/-- `evutil_secure_rng_get_bytes` (`evutil_rand.c`): delegates to
`ev_arc4random_buf`, hence to `arc4random_buf` on the shared globals. -/
def evutil_secure_rng_get_bytes (pid : Nat) (g : RngGlobals) (n : Nat) :
    RngGlobals × List Nat :=
  ev_arc4random_buf pid g n

/-- **C6.**  The secure PRNG state is the single process-wide global record
(`rs` together with `rs_initialized`, `arc4_count`, `arc4_stir_pid`): every
call of `evutil_secure_rng_get_bytes` is exactly `arc4random_buf` reading and
advancing that record — there is no other state it can depend on — and its
output is a deterministic function of it: two runs starting from equal global
stream state (same process) with equal entropy inputs produce identical
output bytes and identical successor states. -/
theorem secure_rng_deterministic (g1 g2 : RngGlobals) (pid n : Nat)
    (hstate : g1 = g2) :
    (evutil_secure_rng_get_bytes pid g1 n).2 =
      (evutil_secure_rng_get_bytes pid g2 n).2 ∧
    (evutil_secure_rng_get_bytes pid g1 n).1 =
      (evutil_secure_rng_get_bytes pid g2 n).1 ∧
    evutil_secure_rng_get_bytes pid g1 n = ev_arc4random_buf pid g1 n ∧
    ev_arc4random_buf pid g1 n = arc4random_buf pid g1 n := by
  subst hstate
  exact ⟨rfl, rfl, rfl, rfl⟩

/-- Witness for C6 at a concrete (uninitialised) global state with a concrete
entropy schedule. -/
theorem secure_rng_deterministic_witness :
    (evutil_secure_rng_get_bytes 42
        ⟨false, arc4_init, 0, 0, [[[1, 2, 3]]]⟩ 5).2 =
      (evutil_secure_rng_get_bytes 42
        ⟨false, arc4_init, 0, 0, [[[1, 2, 3]]]⟩ 5).2 :=
  (secure_rng_deterministic ⟨false, arc4_init, 0, 0, [[[1, 2, 3]]]⟩
    ⟨false, arc4_init, 0, 0, [[[1, 2, 3]]]⟩ 42 5 rfl).1

end Evutil

namespace MinHeap

/-! ## The timeout heap : C5

Modelled from the spec: the repository tree contains no heap source
(`minheap-internal.h` is not under `src/`; only the spec describes it), so the
structure is built from the spec's words: "binary min-heap ordering pending
timed events by absolute deadline", "heap invariant: parent deadline ≤ child
deadlines; supports insert, delete-arbitrary (via a stored index into the
underlying array ...), and peek-min", with O(log n) insert and
arbitrary-position delete.  The underlying array is a `List Int` of deadlines
(deadline values abstracted to integers, which carry the full ordering
content); node `i`'s parent sits at `(i-1)/2` and its children at `2i+1`,
`2i+2`.  Insert appends and sifts up; delete-arbitrary replaces the deleted
slot by the last element and sifts up or down as needed; peek-min reads the
root.  Sift loops are written with an explicit fuel argument (structural
recursion) whose start value is proven sufficient. -/

/-- Deadline stored at index `i` (reads outside the array yield a default,
never used under the proved bounds). -/
def hGet (l : List Int) (i : Nat) : Int := l.getD i 0

/-- Parent index in the array layout of a binary heap. -/
def parentIdx (i : Nat) : Nat := (i - 1) / 2

/-- The heap invariant: every parent deadline ≤ its children's deadlines. -/
def HeapInv (l : List Int) : Prop :=
  ∀ i, 0 < i → i < l.length → hGet l (parentIdx i) ≤ hGet l i

/-- Exchange the entries at `a` and `b` (both indices' cached positions are
updated — in the array model the values just trade places). -/
def listSwap (l : List Int) (a b : Nat) : List Int :=
  (l.set a (hGet l b)).set b (hGet l a)

/-- Sift-up loop with fuel (each step moves to the strictly smaller parent
index, so `i + 1` fuel always suffices). -/
def siftUpFuel : Nat → List Int → Nat → List Int
  | 0, l, _ => l
  | fuel + 1, l, i =>
      if i = 0 then l
      else
        let p := parentIdx i
        if hGet l p ≤ hGet l i then l
        else siftUpFuel fuel (listSwap l p i) p

/-- Restore the invariant upward from index `i`. -/
def siftUp (l : List Int) (i : Nat) : List Int := siftUpFuel (i + 1) l i

/-- Index of the smaller child of `i` (the right child only when it exists
and is strictly smaller). -/
def smallerChild (l : List Int) (i : Nat) : Nat :=
  if 2 * i + 2 < l.length ∧ hGet l (2 * i + 2) < hGet l (2 * i + 1) then
    2 * i + 2
  else 2 * i + 1

/-- Sift-down loop with fuel (each step moves to a strictly larger child
index below `l.length`, so `l.length` fuel always suffices). -/
def siftDownFuel : Nat → List Int → Nat → List Int
  | 0, l, _ => l
  | fuel + 1, l, i =>
      if 2 * i + 1 < l.length then
        let c := smallerChild l i
        if hGet l i ≤ hGet l c then l
        else siftDownFuel fuel (listSwap l i c) c
      else l

/-- Restore the invariant downward from index `i`. -/
def siftDown (l : List Int) (i : Nat) : List Int := siftDownFuel l.length l i

/-- Insert a deadline: append at the end and sift up. -/
def heapInsert (l : List Int) (d : Int) : List Int :=
  siftUp (l ++ [d]) l.length

/-- Delete the entry at an arbitrary position `i` (the index an event caches):
move the last element into the hole, then sift up or down; out-of-range
indices are a no-op. -/
def heapDelete (l : List Int) (i : Nat) : List Int :=
  if i < l.length then
    if i = l.length - 1 then l.dropLast
    else
      if 0 < i ∧ hGet l (l.length - 1) <
          hGet (l.dropLast.set i (hGet l (l.length - 1))) (parentIdx i) then
        siftUp (l.dropLast.set i (hGet l (l.length - 1))) i
      else siftDown (l.dropLast.set i (hGet l (l.length - 1))) i
  else l

/-- `peek_min_deadline()`: the root of the heap. -/
def peekMin (l : List Int) : Int := hGet l 0

/-- One heap operation of an interleaving. -/
inductive HeapOp where
  | ins (d : Int)
  | del (i : Nat)

/-- Apply one operation. -/
def applyOp (l : List Int) : HeapOp → List Int
  | .ins d => heapInsert l d
  | .del i => heapDelete l i

/-- Run an arbitrary interleaving of inserts and deletes from the empty
heap. -/
def applyOps (ops : List HeapOp) : List Int := ops.foldl applyOp []

/-! ### Pointwise facts about `hGet`, `listSwap` -/

theorem hGet_set_self {l : List Int} {i : Nat} (h : i < l.length) (v : Int) :
    hGet (l.set i v) i = v := by
  rw [hGet, List.getD_eq_getElem?_getD, List.getElem?_set_self h]
  rfl

theorem hGet_set_ne {l : List Int} {i j : Nat} (h : i ≠ j) (v : Int) :
    hGet (l.set i v) j = hGet l j := by
  rw [hGet, List.getD_eq_getElem?_getD, List.getElem?_set_ne h, hGet,
    List.getD_eq_getElem?_getD]

theorem length_listSwap (l : List Int) (a b : Nat) :
    (listSwap l a b).length = l.length := by
  simp [listSwap]

theorem hGet_listSwap_fst {l : List Int} {a b : Nat} (ha : a < l.length) :
    hGet (listSwap l a b) a = hGet l b := by
  unfold listSwap
  by_cases hab : a = b
  · subst hab
    rw [hGet_set_self (by simpa using ha)]
  · rw [hGet_set_ne (fun h => hab h.symm), hGet_set_self ha]

theorem hGet_listSwap_snd {l : List Int} {a b : Nat} (hb : b < l.length) :
    hGet (listSwap l a b) b = hGet l a := by
  unfold listSwap
  rw [hGet_set_self (by simpa using hb)]

theorem hGet_listSwap_other {l : List Int} {a b j : Nat} (hja : j ≠ a)
    (hjb : j ≠ b) : hGet (listSwap l a b) j = hGet l j := by
  unfold listSwap
  rw [hGet_set_ne (fun h => hjb h.symm), hGet_set_ne (fun h => hja h.symm)]

/-! ### Permutation facts: the operations move entries, never duplicate or
lose them -/

theorem set_hGet_self : ∀ (l : List Int) (a : Nat), a < l.length →
    l.set a (hGet l a) = l := by
  intro l
  induction l with
  | nil => intro a ha; simp at ha
  | cons y t ih =>
      intro a ha
      cases a with
      | zero => rfl
      | succ a =>
          show y :: t.set a (hGet t a) = y :: t
          rw [ih a (by simpa using ha)]

theorem set_perm : ∀ (t : List Int) (k : Nat) (x : Int), k < t.length →
    (t.set k x).Perm (x :: t.eraseIdx k) := by
  intro t
  induction t with
  | nil => intro k x hk; simp at hk
  | cons y s ih =>
      intro k x hk
      cases k with
      | zero => simp
      | succ k =>
          show (y :: s.set k x).Perm (x :: y :: s.eraseIdx k)
          exact ((ih k x (by simpa using hk)).cons y).trans
            (List.Perm.swap x y (s.eraseIdx k))

/-- An array is, as a multiset, its `k`-th entry plus the rest. -/
theorem cons_eraseIdx_perm (t : List Int) (k : Nat) (hk : k < t.length) :
    t.Perm (hGet t k :: t.eraseIdx k) := by
  have h := set_perm t k (hGet t k) hk
  rw [set_hGet_self t k hk] at h
  exact h

theorem getD_cons_set_perm (t : List Int) (k : Nat) (x : Int)
    (hk : k < t.length) : (hGet t k :: t.set k x).Perm (x :: t) := by
  refine ((set_perm t k x hk).cons (hGet t k)).trans ?_
  refine (List.Perm.swap x (hGet t k) (t.eraseIdx k)).trans ?_
  exact (cons_eraseIdx_perm t k hk).symm.cons x

theorem listSwap_comm (l : List Int) {a b : Nat} (hab : a ≠ b) :
    listSwap l a b = listSwap l b a := by
  unfold listSwap
  exact List.set_comm _ _ l hab

theorem listSwap_perm : ∀ (l : List Int) (a b : Nat), a < l.length →
    b < l.length → (listSwap l a b).Perm l := by
  have key : ∀ (l : List Int) (a b : Nat), a ≤ b → a < l.length →
      b < l.length → (listSwap l a b).Perm l := by
    intro l
    induction l with
    | nil => intro a b _ ha; simp at ha
    | cons y t ih =>
        intro a b hab ha hb
        cases a with
        | zero =>
            cases b with
            | zero =>
                rw [show listSwap (y :: t) 0 0 = y :: t from by
                  unfold listSwap hGet
                  simp]
            | succ b =>
                rw [show listSwap (y :: t) 0 (b + 1) =
                    hGet t b :: t.set b y from by
                  unfold listSwap hGet
                  simp]
                exact getD_cons_set_perm t b y (by simpa using hb)
        | succ a =>
            cases b with
            | zero => omega
            | succ b =>
                rw [show listSwap (y :: t) (a + 1) (b + 1) =
                    y :: listSwap t a b from by
                  unfold listSwap hGet
                  simp]
                exact (ih a b (by omega) (by simpa using ha)
                  (by simpa using hb)).cons y
  intro l a b ha hb
  rcases Nat.le_total a b with h | h
  · exact key l a b h ha hb
  · rcases Nat.eq_or_lt_of_le h with he | hlt
    · exact key l a b (by omega) ha hb
    · rw [listSwap_comm l (by omega)]
      exact key l b a h hb ha

theorem siftUpFuel_perm : ∀ (fuel : Nat) (l : List Int) (i : Nat),
    i < l.length → (siftUpFuel fuel l i).Perm l := by
  intro fuel
  induction fuel with
  | zero => intro l i _; exact List.Perm.refl l
  | succ fuel ih =>
      intro l i hi
      show (if i = 0 then l
        else if hGet l (parentIdx i) ≤ hGet l i then l
        else siftUpFuel fuel (listSwap l (parentIdx i) i) (parentIdx i)).Perm l
      split_ifs with h0 hle
      · exact List.Perm.refl l
      · exact List.Perm.refl l
      · have hp : parentIdx i < i := by
          unfold parentIdx; omega
        have hplen : parentIdx i < (listSwap l (parentIdx i) i).length := by
          rw [length_listSwap]; omega
        exact (ih _ _ hplen).trans (listSwap_perm l _ i (by omega) hi)

theorem smallerChild_lt {l : List Int} {i : Nat} (h : 2 * i + 1 < l.length) :
    i < smallerChild l i ∧ smallerChild l i < l.length := by
  unfold smallerChild
  split_ifs with hc
  · exact ⟨by omega, hc.1⟩
  · exact ⟨by omega, h⟩

theorem siftDownFuel_perm : ∀ (fuel : Nat) (l : List Int) (i : Nat),
    (siftDownFuel fuel l i).Perm l := by
  intro fuel
  induction fuel with
  | zero => intro l i; exact List.Perm.refl l
  | succ fuel ih =>
      intro l i
      show (if 2 * i + 1 < l.length then
          if hGet l i ≤ hGet l (smallerChild l i) then l
          else siftDownFuel fuel (listSwap l i (smallerChild l i))
            (smallerChild l i)
        else l).Perm l
      split_ifs with hch hle
      · exact List.Perm.refl l
      · have hc := smallerChild_lt hch
        exact (ih _ _).trans (listSwap_perm l i _ (by omega) hc.2)
      · exact List.Perm.refl l

theorem heapInsert_perm (l : List Int) (d : Int) :
    (heapInsert l d).Perm (d :: l) := by
  refine (siftUpFuel_perm _ _ _ (by simp)).trans ?_
  exact List.perm_append_singleton d l

theorem hGet_eq_getElem {l : List Int} {i : Nat} (h : i < l.length) :
    hGet l i = l[i] := by
  rw [hGet, List.getD_eq_getElem?_getD, List.getElem?_eq_getElem h]
  rfl

theorem heapDelete_perm (l : List Int) (i : Nat) (hi : i < l.length) :
    (heapDelete l i).Perm (l.eraseIdx i) := by
  unfold heapDelete
  rw [if_pos hi]
  by_cases him : i = l.length - 1
  · rw [if_pos him]
    rw [@List.dropLast_eq_eraseIdx _ l i (by omega)]
  · rw [if_neg him]
    have hne : l ≠ [] := by
      intro h; subst h; simp at hi
    have him' : i < l.dropLast.length := by
      rw [List.length_dropLast]; omega
    have hlast : hGet l (l.length - 1) = l.getLast hne := by
      rw [List.getLast_eq_getElem, hGet_eq_getElem (by omega)]
    have hsetperm : (l.dropLast.set i (hGet l (l.length - 1))).Perm
        (l.eraseIdx i) := by
      refine (set_perm _ i _ him').trans ?_
      rw [hlast]
      have hsplit : l.eraseIdx i = l.dropLast.eraseIdx i ++ [l.getLast hne] := by
        conv_lhs => rw [← List.dropLast_append_getLast hne]
        rw [List.eraseIdx_append_of_lt_length him']
      rw [hsplit]
      exact (List.perm_append_singleton _ _).symm
    split_ifs with hcond
    · refine (siftUpFuel_perm _ _ _ ?_).trans hsetperm
      rw [List.length_set]; omega
    · exact (siftDownFuel_perm _ _ _).trans hsetperm

/-! ### Invariant preservation -/

/-- Pre-condition under which sifting up from `i` restores the full heap
invariant: every parent/child edge holds except possibly the one into `i`,
and `i`'s own parent already dominates `i`'s children. -/
def UpInv (l : List Int) (i : Nat) : Prop :=
  (∀ j, 0 < j → j < l.length → j ≠ i →
    hGet l (parentIdx j) ≤ hGet l j) ∧
  (0 < i → ∀ c, c < l.length → parentIdx c = i → 0 < c →
    hGet l (parentIdx i) ≤ hGet l c)

/-- Pre-condition under which sifting down from `i` restores the full heap
invariant: every edge holds except possibly the ones out of `i`, and `i`'s
parent already dominates `i`'s children. -/
def DownInv (l : List Int) (i : Nat) : Prop :=
  (∀ j, 0 < j → j < l.length → parentIdx j ≠ i →
    hGet l (parentIdx j) ≤ hGet l j) ∧
  (0 < i → ∀ c, c < l.length → parentIdx c = i → 0 < c →
    hGet l (parentIdx i) ≤ hGet l c)

theorem siftUpFuel_inv : ∀ (fuel : Nat) (i : Nat) (l : List Int),
    i < fuel → i < l.length → UpInv l i → HeapInv (siftUpFuel fuel l i) := by
  intro fuel
  induction fuel with
  | zero => intro i l hif; omega
  | succ fuel ih =>
      intro i l hif hi hup
      show HeapInv (if i = 0 then l
        else if hGet l (parentIdx i) ≤ hGet l i then l
        else siftUpFuel fuel (listSwap l (parentIdx i) i) (parentIdx i))
      split_ifs with h0 hle
      · -- i = 0: every edge is an edge into some j ≠ 0
        intro j hj0 hjlen
        exact hup.1 j hj0 hjlen (by omega)
      · -- the edge into i holds too
        intro j hj0 hjlen
        by_cases hji : j = i
        · subst hji; exact hle
        · exact hup.1 j hj0 hjlen hji
      · have hlt : hGet l i < hGet l (parentIdx i) := by omega
        have hpi : parentIdx i < i := by unfold parentIdx; omega
        have hplen : parentIdx i < l.length := by omega
        have hSlen : (listSwap l (parentIdx i) i).length = l.length :=
          length_listSwap l _ i
        have Sp : hGet (listSwap l (parentIdx i) i) (parentIdx i) = hGet l i :=
          hGet_listSwap_fst hplen
        have Si : hGet (listSwap l (parentIdx i) i) i = hGet l (parentIdx i) :=
          hGet_listSwap_snd hi
        have So : ∀ j, j ≠ parentIdx i → j ≠ i →
            hGet (listSwap l (parentIdx i) i) j = hGet l j :=
          fun j h1 h2 => hGet_listSwap_other h1 h2
        refine ih (parentIdx i) (listSwap l (parentIdx i) i) (by omega)
          (by omega) ⟨?_, ?_⟩
        · -- all edges except the one into parentIdx i
          intro j hj0 hjlen' hjp
          rw [hSlen] at hjlen'
          by_cases hji : j = i
          · -- the repaired edge (parentIdx i, i)
            rw [hji, Sp, Si]
            exact le_of_lt hlt
          · have hj' : hGet (listSwap l (parentIdx i) i) j = hGet l j :=
              So j hjp hji
            rw [hj']
            by_cases hpjp : parentIdx j = parentIdx i
            · -- sibling of i (or i's niece through p): new parent value is
              -- the old value of i, which is even smaller
              rw [hpjp, Sp]
              have := hup.1 j hj0 hjlen' hji
              rw [hpjp] at this
              omega
            · by_cases hpji : parentIdx j = i
              · -- child of i: i's old parent (now sitting at i) dominates it
                rw [hpji, Si]
                exact hup.2 (by omega) j hjlen' hpji hj0
              · rw [So _ hpjp hpji]
                exact hup.1 j hj0 hjlen' hji
        · -- the grandparent of the new hole dominates the hole's children
          intro hp0 c hclen' hpc hc0
          rw [hSlen] at hclen'
          have hpp_ne_p : parentIdx (parentIdx i) ≠ parentIdx i := by
            unfold parentIdx at *; omega
          have hpp_ne_i : parentIdx (parentIdx i) ≠ i := by
            unfold parentIdx at *; omega
          rw [So _ hpp_ne_p hpp_ne_i]
          by_cases hci : c = i
          · rw [hci, Si]
            exact hup.1 (parentIdx i) hp0 hplen (by omega)
          · have hcp : c ≠ parentIdx i := by
              unfold parentIdx at *; omega
            rw [So c hcp hci]
            have h1 := hup.1 (parentIdx i) hp0 hplen (by omega)
            have h2 := hup.1 c hc0 hclen' hci
            rw [hpc] at h2
            omega

/-- The smaller child is a child of `i` and is ≤ every child of `i`. -/
theorem smallerChild_min {l : List Int} {i : Nat} (hch : 2 * i + 1 < l.length) :
    parentIdx (smallerChild l i) = i ∧
    ∀ j, parentIdx j = i → 0 < j → j < l.length →
      hGet l (smallerChild l i) ≤ hGet l j := by
  unfold smallerChild
  split_ifs with hc
  · refine ⟨by unfold parentIdx; omega, ?_⟩
    intro j hpj hj0 hjlen
    have : j = 2 * i + 1 ∨ j = 2 * i + 2 := by
      unfold parentIdx at hpj; omega
    rcases this with hj | hj <;> subst hj
    · exact le_of_lt hc.2
    · exact le_refl _
  · refine ⟨by unfold parentIdx; omega, ?_⟩
    intro j hpj hj0 hjlen
    have : j = 2 * i + 1 ∨ j = 2 * i + 2 := by
      unfold parentIdx at hpj; omega
    rcases this with hj | hj <;> subst hj
    · exact le_refl _
    · have : ¬hGet l (2 * i + 2) < hGet l (2 * i + 1) := by
        intro hlt; exact hc ⟨hjlen, hlt⟩
      omega

theorem siftDownFuel_inv : ∀ (fuel : Nat) (l : List Int) (i : Nat),
    l.length ≤ fuel + i → DownInv l i → HeapInv (siftDownFuel fuel l i) := by
  intro fuel
  induction fuel with
  | zero =>
      intro l i hif hdown
      show HeapInv l
      intro j hj0 hjlen
      have hpj : parentIdx j ≠ i := by
        unfold parentIdx at *; omega
      exact hdown.1 j hj0 hjlen hpj
  | succ fuel ih =>
      intro l i hif hdown
      show HeapInv (if 2 * i + 1 < l.length then
          if hGet l i ≤ hGet l (smallerChild l i) then l
          else siftDownFuel fuel (listSwap l i (smallerChild l i))
            (smallerChild l i)
        else l)
      split_ifs with hch hle
      · -- i already dominates its smaller child, hence both children
        intro j hj0 hjlen
        by_cases hpji : parentIdx j = i
        · rw [hpji]
          exact le_trans hle ((smallerChild_min hch).2 j hpji hj0 hjlen)
        · exact hdown.1 j hj0 hjlen hpji
      · -- swap with the smaller child and recurse there
        have hsc := smallerChild_lt hch
        have hpc : parentIdx (smallerChild l i) = i := (smallerChild_min hch).1
        have hic : i < smallerChild l i := hsc.1
        have hclen : smallerChild l i < l.length := hsc.2
        have hilen : i < l.length := by omega
        have hlt : hGet l (smallerChild l i) < hGet l i := by omega
        have hSlen : (listSwap l i (smallerChild l i)).length = l.length :=
          length_listSwap l i _
        have Si : hGet (listSwap l i (smallerChild l i)) i =
            hGet l (smallerChild l i) := hGet_listSwap_fst hilen
        have Sc : hGet (listSwap l i (smallerChild l i)) (smallerChild l i) =
            hGet l i := hGet_listSwap_snd hclen
        have So : ∀ j, j ≠ i → j ≠ smallerChild l i →
            hGet (listSwap l i (smallerChild l i)) j = hGet l j :=
          fun j h1 h2 => hGet_listSwap_other h1 h2
        refine ih (listSwap l i (smallerChild l i)) (smallerChild l i)
          (by omega) ⟨?_, ?_⟩
        · intro j hj0 hjlen' hpjc
          rw [hSlen] at hjlen'
          by_cases hjc : j = smallerChild l i
          · -- the repaired edge (i, c)
            rw [hjc, hpc, Si, Sc]
            exact le_of_lt hlt
          · by_cases hji : j = i
            · -- the edge into i: i's old parent dominates i's new value,
              -- which is the old value of the child c
              have hi0 : 0 < i := by omega
              have hpi_ne_i : parentIdx i ≠ i := by
                unfold parentIdx; omega
              have hpi_ne_c : parentIdx i ≠ smallerChild l i := by
                unfold parentIdx at *; omega
              rw [hji, So _ hpi_ne_i hpi_ne_c, Si]
              exact hdown.2 hi0 (smallerChild l i) hclen hpc (by omega)
            · rw [So j hji hjc]
              by_cases hpji : parentIdx j = i
              · -- the other child of i: c was the smaller one
                rw [hpji, Si]
                exact (smallerChild_min hch).2 j hpji hj0 hjlen'
              · rw [So _ hpji hpjc]
                exact hdown.1 j hj0 hjlen' hpji
        · intro hc0 d hdlen' hpd hd0
          rw [hSlen] at hdlen'
          have hd_ne_c : d ≠ smallerChild l i := by
            unfold parentIdx at *; omega
          have hd_ne_i : d ≠ i := by
            unfold parentIdx at *; omega
          rw [hpc, Si, So d hd_ne_i hd_ne_c]
          have := hdown.1 d hd0 hdlen' (by rw [hpd]; omega)
          rw [hpd] at this
          exact this
      · -- i has no children: every edge's parent differs from i
        intro j hj0 hjlen
        have hpj : parentIdx j ≠ i := by
          unfold parentIdx at *; omega
        exact hdown.1 j hj0 hjlen hpj

theorem siftUp_inv (l : List Int) (i : Nat) (hi : i < l.length)
    (h : UpInv l i) : HeapInv (siftUp l i) :=
  siftUpFuel_inv (i + 1) i l (by omega) hi h

theorem siftDown_inv (l : List Int) (i : Nat) (h : DownInv l i) :
    HeapInv (siftDown l i) :=
  siftDownFuel_inv l.length l i (by omega) h

theorem hGet_append_left {l l' : List Int} {j : Nat} (h : j < l.length) :
    hGet (l ++ l') j = hGet l j := by
  rw [hGet, hGet, List.getD_eq_getElem?_getD, List.getD_eq_getElem?_getD,
    List.getElem?_append, if_pos h]

theorem hGet_dropLast {l : List Int} {j : Nat} (h : j < l.length - 1) :
    hGet l.dropLast j = hGet l j := by
  have h1 : j < l.dropLast.length := by rw [List.length_dropLast]; omega
  have h2 : j < l.length := by omega
  rw [hGet_eq_getElem h1, hGet_eq_getElem h2, List.getElem_dropLast]

/-- Inserting preserves the heap invariant. -/
theorem heapInsert_inv (l : List Int) (d : Int) (h : HeapInv l) :
    HeapInv (heapInsert l d) := by
  unfold heapInsert
  refine siftUp_inv _ _ (by simp) ⟨?_, ?_⟩
  · intro j hj0 hjlen hjne
    rw [List.length_append, List.length_cons, List.length_nil] at hjlen
    have hjl : j < l.length := by omega
    have hpjl : parentIdx j < l.length := by
      unfold parentIdx; omega
    rw [hGet_append_left hjl, hGet_append_left hpjl]
    exact h j hj0 hjl
  · intro hl0 c hclen hpc hc0
    rw [List.length_append, List.length_cons, List.length_nil] at hclen
    unfold parentIdx at hpc
    omega

/-- Deleting an arbitrary position preserves the heap invariant. -/
theorem heapDelete_inv (l : List Int) (i : Nat) (h : HeapInv l) :
    HeapInv (heapDelete l i) := by
  unfold heapDelete
  by_cases hi : i < l.length
  · rw [if_pos hi]
    by_cases him : i = l.length - 1
    · rw [if_pos him]
      intro j hj0 hjlen
      rw [List.length_dropLast] at hjlen
      have hpj : parentIdx j < l.length - 1 := by
        unfold parentIdx; omega
      rw [hGet_dropLast hjlen, hGet_dropLast hpj]
      exact h j hj0 (by omega)
    · rw [if_neg him]
      have hlen2 : (l.dropLast.set i (hGet l (l.length - 1))).length =
          l.length - 1 := by
        rw [List.length_set, List.length_dropLast]
      have him' : i < l.length - 1 := by omega
      have hady : i < l.dropLast.length := by
        rw [List.length_dropLast]; omega
      have hGi : hGet (l.dropLast.set i (hGet l (l.length - 1))) i =
          hGet l (l.length - 1) := hGet_set_self hady _
      have hGo : ∀ j, j ≠ i → j < l.length - 1 →
          hGet (l.dropLast.set i (hGet l (l.length - 1))) j = hGet l j := by
        intro j hj hjl
        rw [hGet_set_ne (fun hh => hj hh.symm), hGet_dropLast hjl]
      split_ifs with hcond
      · -- the replacement is smaller than the parent: sift up
        refine siftUp_inv _ _ (by omega) ⟨?_, ?_⟩
        · intro j hj0 hjlen hjne
          rw [hlen2] at hjlen
          rw [hGo j hjne hjlen]
          by_cases hpji : parentIdx j = i
          · rw [hpji, hGi]
            have hpi_lt : parentIdx i < i := by unfold parentIdx; omega
            have e1 : hGet (l.dropLast.set i (hGet l (l.length - 1)))
                (parentIdx i) = hGet l (parentIdx i) :=
              hGo _ (by omega) (by omega)
            rw [e1] at hcond
            have h2 := h i hcond.1 (by omega)
            have h3 := h j hj0 (by omega)
            rw [hpji] at h3
            omega
          · have hpjne : parentIdx j < l.length - 1 := by
              unfold parentIdx; omega
            rw [hGo _ hpji hpjne]
            exact h j hj0 (by omega)
        · intro hi0 c hclen hpc hc0
          rw [hlen2] at hclen
          have hc_ne : c ≠ i := by
            unfold parentIdx at hpc; omega
          have hpi_ne : parentIdx i ≠ i := by
            unfold parentIdx; omega
          have hpi_lt : parentIdx i < l.length - 1 := by
            unfold parentIdx; omega
          rw [hGo _ hpi_ne hpi_lt, hGo c hc_ne hclen]
          have h1 := h i hi0 (by omega)
          have h2 := h c hc0 (by omega)
          rw [hpc] at h2
          omega
      · -- otherwise sift down
        refine siftDown_inv _ _ ⟨?_, ?_⟩
        · intro j hj0 hjlen hpji
          rw [hlen2] at hjlen
          by_cases hji : j = i
          · -- the edge into the replaced slot
            rw [hji, hGi]
            have hi0 : 0 < i := by omega
            have hple : ¬(hGet l (l.length - 1) <
                hGet (l.dropLast.set i (hGet l (l.length - 1)))
                  (parentIdx i)) := by
              intro hlt; exact hcond ⟨hi0, hlt⟩
            have hpi_ne : parentIdx i ≠ i := by
              unfold parentIdx; omega
            have hpi_lt : parentIdx i < l.length - 1 := by
              unfold parentIdx; omega
            omega
          · have hpjne : parentIdx j < l.length - 1 := by
              unfold parentIdx; omega
            rw [hGo j hji hjlen, hGo _ hpji hpjne]
            exact h j hj0 (by omega)
        · intro hi0 c hclen hpc hc0
          rw [hlen2] at hclen
          have hc_ne : c ≠ i := by
            unfold parentIdx at hpc; omega
          have hpi_ne : parentIdx i ≠ i := by
            unfold parentIdx; omega
          have hpi_lt : parentIdx i < l.length - 1 := by
            unfold parentIdx; omega
          rw [hGo _ hpi_ne hpi_lt, hGo c hc_ne hclen]
          have h1 := h i hi0 (by omega)
          have h2 := h c hc0 (by omega)
          rw [hpc] at h2
          omega
  · rw [if_neg hi]
    exact h

/-- Under the heap invariant the root is ≤ every entry. -/
theorem heapInv_root_le (l : List Int) (h : HeapInv l) :
    ∀ j, j < l.length → hGet l 0 ≤ hGet l j := by
  intro j
  induction j using Nat.strong_induction_on with
  | _ j ih =>
      intro hj
      rcases Nat.eq_zero_or_pos j with hj0 | hj0
      · subst hj0; exact le_refl _
      · have hpj : parentIdx j < j := by unfold parentIdx; omega
        exact le_trans (ih (parentIdx j) hpj (by omega)) (h j hj0 hj)

theorem applyOp_inv (l : List Int) (op : HeapOp) (h : HeapInv l) :
    HeapInv (applyOp l op) := by
  cases op with
  | ins d => exact heapInsert_inv l d h
  | del i => exact heapDelete_inv l i h

theorem foldl_applyOp_inv : ∀ (ops : List HeapOp) (l : List Int),
    HeapInv l → HeapInv (ops.foldl applyOp l) := by
  intro ops
  induction ops with
  | nil => intro l h; exact h
  | cons op ops ih =>
      intro l h
      exact ih (applyOp l op) (applyOp_inv l op h)

/-- **C5.**  For every interleaving of insert and delete-arbitrary operations
on the binary min-heap of deadlines (starting from the empty heap): the heap
invariant — every parent deadline ≤ its children's deadlines — holds
throughout, and `peek_min_deadline()` returns the true minimum deadline among
the entries still present (it is one of the present entries and is ≤ each of
them).  Moreover the operations move exactly the right entries: an insert adds
precisely the new deadline, and a delete at a valid cached index removes
precisely the entry at that index (as multisets), so "the entries still
present" are exactly the inserted-and-not-deleted ones. -/
theorem heap_interleaving_spec (ops : List HeapOp) :
    HeapInv (applyOps ops) ∧
    (applyOps ops ≠ [] →
      peekMin (applyOps ops) ∈ applyOps ops ∧
      ∀ x ∈ applyOps ops, peekMin (applyOps ops) ≤ x) ∧
    (∀ (l : List Int) (d : Int), (heapInsert l d).Perm (d :: l)) ∧
    (∀ (l : List Int) (i : Nat), i < l.length →
      (heapDelete l i).Perm (l.eraseIdx i)) := by
  have hinv : HeapInv (applyOps ops) := by
    apply foldl_applyOp_inv
    intro i hi0 hilen
    simp at hilen
  refine ⟨hinv, ?_, heapInsert_perm, heapDelete_perm⟩
  intro hne
  have hlen : 0 < (applyOps ops).length := List.length_pos.mpr hne
  constructor
  · rw [peekMin, hGet_eq_getElem hlen]
    exact List.getElem_mem hlen
  · intro x hx
    rcases List.mem_iff_getElem.mp hx with ⟨j, hj, rfl⟩
    rw [peekMin, ← hGet_eq_getElem hj]
    exact heapInv_root_le _ hinv j hj

/-- Witness for C5: a concrete interleaving (insert 5, insert 1, insert 3,
delete index 1) ends as the heap `[1, 3]`; its root is the true minimum, and
a concrete delete is exactly an erase. -/
theorem heap_interleaving_spec_witness :
    (heapDelete [1, 2, 3] 1).Perm ([1, 2, 3].eraseIdx 1) ∧
    peekMin (applyOps [HeapOp.ins 5, HeapOp.ins 1, HeapOp.ins 3,
      HeapOp.del 1]) ≤ 3 :=
  ⟨(heap_interleaving_spec []).2.2.2 [1, 2, 3] 1 (by decide),
    ((heap_interleaving_spec [HeapOp.ins 5, HeapOp.ins 1, HeapOp.ins 3,
        HeapOp.del 1]).2.1 (by decide)).2 3 (by decide)⟩

end MinHeap

namespace Inet

/-! ## `evutil_inet_ntop` / `evutil_inet_pton` (`evutil.c:1289-1379`,
`evutil.c:1416-1522`) : C7

Strings are byte lists (`List Nat` of ASCII codes: `.` = 46, `:` = 58,
digits 48–57, `a`–`f` 97–102); an IPv4 address is its 4 network-order bytes
(`struct in_addr`), an IPv6 address its 16 bytes (`s6_addr`).  The
`%d` / `%x` conversions of `evutil_snprintf` and the `%u` / hex-`strtol`
conversions of `sscanf` / `evutil_inet_pton` become explicit digit
printers/parsers.  Where the C scanners accept leading `+` signs or
whitespace (`sscanf`) the embedding covers the digit-string inputs the
printer can produce, which is what the round-trip claim quantifies over;
likewise a hex run is scanned inside the current word region (`strtol`
reading past `eow` only happens on strings the printer never emits, and
those inputs fail in both the code and the model). -/

/-- ASCII decimal digit. -/
def isDigitB (c : Nat) : Bool := 48 ≤ c ∧ c ≤ 57

/-- `EVUTIL_ISXDIGIT_`: 0-9, a-f, A-F. -/
def isHexB (c : Nat) : Bool :=
  (48 ≤ c ∧ c ≤ 57) ∨ (97 ≤ c ∧ c ≤ 102) ∨ (65 ≤ c ∧ c ≤ 70)

/-- Value of a hex digit (as `evutil_hex_char_to_int_` / `strtol` use it). -/
def hexDigVal (c : Nat) : Nat :=
  if c ≤ 57 then c - 48 else if 97 ≤ c then c - 87 else c - 55

/-- ASCII code of decimal digit `n` (`n < 10`). -/
def digitChr (n : Nat) : Nat := 48 + n

/-- ASCII code of lowercase hex digit `n` (`n < 16`), as `%x` prints. -/
def hexChr (n : Nat) : Nat := if n < 10 then 48 + n else 87 + n

/-- Decimal printing (`%d` of a byte value), with structural fuel. -/
def toDecD : Nat → Nat → List Nat
  | 0, _ => []
  | fuel + 1, n =>
      if n < 10 then [digitChr n]
      else toDecD fuel (n / 10) ++ [digitChr (n % 10)]

/-- `%d` of a value below 1000. -/
def toDec (n : Nat) : List Nat := toDecD 3 n

/-- Lowercase hex printing (`%x` of a 16-bit word), with structural fuel. -/
def toHexD : Nat → Nat → List Nat
  | 0, _ => []
  | fuel + 1, n =>
      if n < 16 then [hexChr n]
      else toHexD fuel (n / 16) ++ [hexChr (n % 16)]

/-- `%x` of a value below 65536. -/
def toHexL (n : Nat) : List Nat := toHexD 4 n

/-- Numeric value of a decimal digit string (as `%u` accumulates it). -/
def decVal (ds : List Nat) : Nat := ds.foldl (fun a c => a * 10 + (c - 48)) 0

/-- Numeric value of a hex digit string (as `strtol` base 16 accumulates). -/
def hexVal (ds : List Nat) : Nat := ds.foldl (fun a c => a * 16 + hexDigVal c) 0

/-! ### Digit printer/parser round trips -/

theorem digitChr_isDigit {n : Nat} (h : n < 10) : isDigitB (digitChr n) = true := by
  simp [isDigitB, digitChr]
  omega

theorem digitChr_not_hexLetterRange {n : Nat} (h : n < 10) :
    isHexB (digitChr n) = true := by
  simp [isHexB, digitChr]
  omega

theorem hexChr_isHex {n : Nat} (h : n < 16) : isHexB (hexChr n) = true := by
  unfold hexChr
  split_ifs with h10 <;> simp [isHexB] <;> omega

theorem hexDigVal_hexChr {n : Nat} (h : n < 16) : hexDigVal (hexChr n) = n := by
  unfold hexChr hexDigVal
  split_ifs <;> omega

theorem decVal_append_digit (xs : List Nat) (c : Nat) :
    decVal (xs ++ [c]) = decVal xs * 10 + (c - 48) := by
  unfold decVal
  rw [List.foldl_append]
  rfl

theorem hexVal_append_digit (xs : List Nat) (c : Nat) :
    hexVal (xs ++ [c]) = hexVal xs * 16 + hexDigVal c := by
  unfold hexVal
  rw [List.foldl_append]
  rfl

/-- `toDecD` is correct for values below `10 ^ (fuel+1)`: nonempty, all
decimal digits, at most `fuel+1` long, and parsing back gives the value. -/
theorem toDecD_spec : ∀ (fuel n : Nat), n < 10 ^ (fuel + 1) →
    toDecD (fuel + 1) n ≠ [] ∧ (∀ c ∈ toDecD (fuel + 1) n, isDigitB c = true) ∧
    (toDecD (fuel + 1) n).length ≤ fuel + 1 ∧ decVal (toDecD (fuel + 1) n) = n := by
  intro fuel
  induction fuel with
  | zero =>
      intro n h
      have h10 : n < 10 := by norm_num at h; omega
      show toDecD 1 n ≠ [] ∧ _ ∧ _ ∧ _
      unfold toDecD
      rw [if_pos h10]
      refine ⟨by simp, ?_, by simp, ?_⟩
      · intro c hc
        rw [List.mem_singleton] at hc
        subst hc
        exact digitChr_isDigit h10
      · show decVal [digitChr n] = n
        unfold decVal digitChr
        simp
  | succ fuel ih =>
      intro n h
      show toDecD (fuel + 1 + 1) n ≠ [] ∧ _ ∧ _ ∧ _
      unfold toDecD
      split_ifs with h10
      · refine ⟨by simp, ?_, by simp, ?_⟩
        · intro c hc
          rw [List.mem_singleton] at hc
          subst hc
          exact digitChr_isDigit h10
        · show decVal [digitChr n] = n
          unfold decVal digitChr
          simp
      · have hq : n / 10 < 10 ^ (fuel + 1) := by
          rw [pow_succ] at h
          omega
        obtain ⟨hne, hdig, hlen, hval⟩ := ih (n / 10) hq
        refine ⟨by simp, ?_, ?_, ?_⟩
        · intro c hc
          rw [List.mem_append] at hc
          rcases hc with hc | hc
          · exact hdig c hc
          · rw [List.mem_singleton] at hc
            subst hc
            exact digitChr_isDigit (by omega)
        · rw [List.length_append]
          simp only [List.length_singleton]
          omega
        · rw [decVal_append_digit, hval]
          unfold digitChr
          omega

/-- `toHexD` is correct for values below `16 ^ (fuel+1)`. -/
theorem toHexD_spec : ∀ (fuel n : Nat), n < 16 ^ (fuel + 1) →
    toHexD (fuel + 1) n ≠ [] ∧ (∀ c ∈ toHexD (fuel + 1) n, isHexB c = true) ∧
    (toHexD (fuel + 1) n).length ≤ fuel + 1 ∧ hexVal (toHexD (fuel + 1) n) = n := by
  intro fuel
  induction fuel with
  | zero =>
      intro n h
      have h16 : n < 16 := by norm_num at h; omega
      show toHexD 1 n ≠ [] ∧ _ ∧ _ ∧ _
      unfold toHexD
      rw [if_pos h16]
      refine ⟨by simp, ?_, by simp, ?_⟩
      · intro c hc
        rw [List.mem_singleton] at hc
        subst hc
        exact hexChr_isHex h16
      · show hexVal [hexChr n] = n
        unfold hexVal
        simp [hexDigVal_hexChr h16]
  | succ fuel ih =>
      intro n h
      show toHexD (fuel + 1 + 1) n ≠ [] ∧ _ ∧ _ ∧ _
      unfold toHexD
      split_ifs with h16
      · refine ⟨by simp, ?_, by simp, ?_⟩
        · intro c hc
          rw [List.mem_singleton] at hc
          subst hc
          exact hexChr_isHex h16
        · show hexVal [hexChr n] = n
          unfold hexVal
          simp [hexDigVal_hexChr h16]
      · have hq : n / 16 < 16 ^ (fuel + 1) := by
          rw [pow_succ] at h
          omega
        obtain ⟨hne, hdig, hlen, hval⟩ := ih (n / 16) hq
        refine ⟨by simp, ?_, ?_, ?_⟩
        · intro c hc
          rw [List.mem_append] at hc
          rcases hc with hc | hc
          · exact hdig c hc
          · rw [List.mem_singleton] at hc
            subst hc
            exact hexChr_isHex (by omega)
        · rw [List.length_append]
          simp only [List.length_singleton]
          omega
        · rw [hexVal_append_digit, hval, hexDigVal_hexChr (by omega)]
          omega

/-! ### The printers (`evutil_inet_ntop`, `evutil.c:1289-1379`) -/

/-- `"%d.%d.%d.%d"` of four byte values. -/
def printV4 (b0 b1 b2 b3 : Nat) : List Nat :=
  toDec b0 ++ 46 :: (toDec b1 ++ 46 :: (toDec b2 ++ 46 :: toDec b3))

/-- `evutil_inet_ntop(AF_INET, ...)`: `evutil_snprintf` into a buffer of
`len` bytes; `NULL` when the formatted length reaches `len`. -/
def ntop4 (bytes : List Nat) (len : Nat) : Option (List Nat) :=
  let s := printV4 (bytes.getD 0 0) (bytes.getD 1 0) (bytes.getD 2 0)
    (bytes.getD 3 0)
  if s.length < len then some s else none

/-- `words[i]` of the IPv6 formatter: big-endian 16-bit words of the
address bytes. -/
def wordsOf (bytes : List Nat) : List Nat :=
  (List.range 8).map (fun i => bytes.getD (2 * i) 0 * 256 + bytes.getD (2 * i + 1) 0)

/-- Length of the zero-word run starting at `i`. -/
def runLen (ws : List Nat) (i : Nat) : Nat :=
  ((ws.drop i).takeWhile (fun w => w == 0)).length

/-- Start of a maximal zero run (what the gap-scanning loop enumerates). -/
def runStart (ws : List Nat) (i : Nat) : Bool :=
  (ws.getD i 1 == 0) && (i == 0 || !(ws.getD (i - 1) 1 == 0))

/-- The gap scan of `evutil_inet_ntop` (`evutil.c:1338-1353`): the loop
enumerates zero runs in order and keeps the first strictly longest one
(length, position). -/
def gapBest (ws : List Nat) : Nat × Option Nat :=
  (List.range 8).foldl (fun b i =>
    if runStart ws i then
      if b.1 < runLen ws i then (runLen ws i, some i) else b
    else b) ((0 : Nat), (none : Option Nat))

/-- The chosen gap: runs shorter than 2 are discarded (`longestGapLen <= 1`
resets the position to `-1`). -/
def longestGapPos (ws : List Nat) : Option Nat :=
  if (gapBest ws).1 ≤ 1 then none else (gapBest ws).2

/-- The group-printing loop (`evutil.c:1357-1373`): at the chosen gap emit
`::` (a bare `:` when not at position 0 — the preceding group already ended
with `:`) and skip the zero run; otherwise emit the word in `%x` form
followed by `:` unless it is the last word. -/
def buildGroups (ws : List Nat) (gap : Option Nat) : Nat → Nat → List Nat
  | 0, _ => []
  | fuel + 1, i =>
      if i < 8 then
        if ws.getD i 0 = 0 ∧ gap = some i then
          (if i = 0 then [58, 58] else [58]) ++
            buildGroups ws gap fuel (i + runLen ws i)
        else
          toHexL (ws.getD i 0) ++ (if i = 7 then [] else [58]) ++
            buildGroups ws gap fuel (i + 1)
      else []

/-- The formatted IPv6 string (`evutil.c:1306-1373`): the two embedded-IPv4
special cases, else the general grouped form. -/
def ntop6core (bytes : List Nat) : List Nat :=
  let ws := wordsOf bytes
  if ws.getD 0 0 = 0 ∧ ws.getD 1 0 = 0 ∧ ws.getD 2 0 = 0 ∧ ws.getD 3 0 = 0 ∧
      ws.getD 4 0 = 0 ∧
      ((ws.getD 5 0 = 0 ∧ ws.getD 6 0 ≠ 0 ∧ ws.getD 7 0 ≠ 0) ∨
        ws.getD 5 0 = 65535) then
    if ws.getD 5 0 = 0 then
      58 :: 58 :: printV4 (bytes.getD 12 0) (bytes.getD 13 0)
        (bytes.getD 14 0) (bytes.getD 15 0)
    else
      58 :: 58 :: (toHexL (ws.getD 5 0) ++ 58 :: printV4 (bytes.getD 12 0)
        (bytes.getD 13 0) (bytes.getD 14 0) (bytes.getD 15 0))
  else buildGroups ws (longestGapPos ws) 8 0

/-- `evutil_inet_ntop(AF_INET6, ...)`: `NULL` when the string is longer than
the buffer, else `strlcpy` into it (which truncates at `len - 1` in the
`strlen(buf) = len` corner). -/
def ntop6 (bytes : List Nat) (len : Nat) : Option (List Nat) :=
  let s := ntop6core bytes
  if len < s.length then none
  else some (if len ≤ s.length then s.take (len - 1) else s)

/-! ### The parsers (`evutil_inet_pton`, `evutil.c:1416-1522`) -/

/-- One `%u` of the `sscanf` pattern: a nonempty digit run and its value. -/
def parseDec (s : List Nat) : Option (Nat × List Nat) :=
  let ds := s.takeWhile isDigitB
  if ds.isEmpty then none else some (decVal ds, s.drop ds.length)

/-- `sscanf(s, "%u.%u.%u.%u%c") == 4`: four dotted decimals consuming the
whole string. -/
def parseV4 (s : List Nat) : Option (Nat × Nat × Nat × Nat) :=
  match parseDec s with
  | none => none
  | some (a, s) =>
    match s with
    | 46 :: s =>
      match parseDec s with
      | none => none
      | some (b, s) =>
        match s with
        | 46 :: s =>
          match parseDec s with
          | none => none
          | some (c, s) =>
            match s with
            | 46 :: s =>
              match parseDec s with
              | none => none
              | some (d, s) =>
                match s with
                | [] => some (a, b, c, d)
                | _ => none
            | _ => none
        | _ => none
    | _ => none

/-- `evutil_inet_pton(AF_INET, ...)` (`evutil.c:1419-1431`). -/
def pton4 (s : List Nat) : Option (List Nat) :=
  match parseV4 s with
  | none => none
  | some (a, b, c, d) =>
      if 255 < a ∨ 255 < b ∨ 255 < c ∨ 255 < d then none
      else some [a, b, c, d]

/-- The hex group scan (`strtol` base 16 plus the `next > 4 + src`,
`r > 65536` checks and the `uint16_t` store). -/
def parseHexGroup (s : List Nat) : Option (Nat × List Nat) :=
  let ds := s.takeWhile isHexB
  if ds.isEmpty then none
  else if 4 < ds.length then none
  else if 65536 < hexVal ds then none
  else some (hexVal ds % 65536, s.drop ds.length)

/-- The main word-scanning loop of the IPv6 parser (`evutil.c:1464-1489`),
running over the region before the embedded IPv4 part.  State: the hex words
parsed so far and the position of the `::` gap if one was seen.  Structural
fuel; each step consumes at least one byte, so the input length suffices. -/
def parseLoopF : Nat → List Nat → Option Nat → List Nat →
    Option (List Nat × Option Nat)
  | _, [], gap, hw => some (hw, gap)
  | 0, _ :: _, _, _ => none
  | fuel + 1, c :: rest, gap, hw =>
      if 7 < hw.length then none
      else if isHexB c then
        match parseHexGroup (c :: rest) with
        | none => none
        | some (w, s1) =>
          match s1 with
          | [] => some (hw ++ [w], gap)
          | 58 :: s2 => parseLoopF fuel s2 gap (hw ++ [w])
          | _ => none
      else if c = 58 ∧ hw.length ≠ 0 ∧ gap = none then
        parseLoopF fuel rest (some hw.length) hw
      else if c = 58 ∧ hw.length = 0 ∧ gap = none ∧ rest.headD 0 = 58 then
        parseLoopF fuel rest.tail (some 0) hw
      else none

/-- `strchr(src, '.')` as an index. -/
def findDot : List Nat → Option Nat
  | [] => none
  | c :: rest => if c = 46 then some 0 else (findDot rest).map (· + 1)

/-- 16-bit words back to bytes (`evutil.c:1513-1516`). -/
def wordsToBytes (ws : List Nat) : List Nat :=
  (ws.map (fun w => [w / 256, w % 256])).flatten

/-- The tail of the IPv6 parser (`evutil.c:1491-1512`): the `setWords` sanity
checks, then the `memmove`/`memset` that opens the `::` gap, then the byte
store.  `v4` holds `words[6]`, `words[7]` when the string had an embedded
IPv4 part. -/
def assembleWords (hw : List Nat) (gap : Option Nat) (v4 : Option (List Nat)) :
    Option (List Nat) :=
  let setWords := hw.length + (if v4.isSome then 2 else 0)
  if 8 < setWords ∨ (setWords = 8 ∧ gap ≠ none) ∨
      (setWords < 8 ∧ gap = none) then none
  else
    match gap with
    | none => some (wordsToBytes (hw ++ v4.getD []))
    | some g =>
        if hw.length < g then none
        else some (wordsToBytes (hw.take g ++ List.replicate (8 - setWords) 0 ++
          hw.drop g ++ v4.getD []))

/-- `evutil_inet_pton(AF_INET6, ...)` (`evutil.c:1433-1519`). -/
def pton6 (s : List Nat) : Option (List Nat) :=
  match findDot s with
  | some 0 => none
  | some d =>
      let digitsBefore := ((s.take d).reverse.takeWhile isDigitB).length
      let eow := d - digitsBefore
      match parseV4 (s.drop eow) with
      | none => none
      | some (b1, b2, b3, b4) =>
          if 255 < b1 ∨ 255 < b2 ∨ 255 < b3 ∨ 255 < b4 then none
          else
            match parseLoopF eow (s.take eow) none [] with
            | none => none
            | some (hw, gap) =>
                assembleWords hw gap (some [b1 * 256 + b2, b3 * 256 + b4])
  | none =>
      match parseLoopF s.length s none [] with
      | none => none
      | some (hw, gap) => assembleWords hw gap none

/-! ### Scanner helper lemmas -/

theorem takeWhile_length_le (p : Nat → Bool) :
    ∀ l : List Nat, (l.takeWhile p).length ≤ l.length := by
  intro l
  induction l with
  | nil => simp
  | cons c rest ih =>
      rw [List.takeWhile_cons]
      split_ifs <;> simp <;> omega

/-- A scan stops exactly at the end of an all-satisfying prefix when the
suffix starts with a failing element (or is empty). -/
theorem takeWhile_all_append (p : Nat → Bool) :
    ∀ (xs ys : List Nat), (∀ x ∈ xs, p x = true) →
      (∀ y ∈ ys.take 1, p y = false) →
      (xs ++ ys).takeWhile p = xs := by
  intro xs
  induction xs with
  | nil =>
      intro ys _ hys
      cases ys with
      | nil => rfl
      | cons y ys =>
          rw [List.nil_append, List.takeWhile_cons,
            if_neg (by simp [hys y (by simp)])]
  | cons x xs ih =>
      intro ys hxs hys
      rw [List.cons_append, List.takeWhile_cons,
        if_pos (hxs x (List.mem_cons_self x xs)),
        ih ys (fun a ha => hxs a (List.mem_cons_of_mem x ha)) hys]

theorem isDigitB_ne_46 {c : Nat} (h : isDigitB c = true) : c ≠ 46 := by
  simp [isDigitB] at h
  omega

theorem isHexB_ne_46 {c : Nat} (h : isHexB c = true) : c ≠ 46 := by
  simp [isHexB] at h
  omega

theorem isHexB_58 : isHexB 58 = false := by decide

theorem isDigitB_58 : isDigitB 58 = false := by decide

theorem isHexB_of_isDigitB {c : Nat} (h : isDigitB c = true) :
    isHexB c = true := by
  simp [isDigitB] at h
  simp [isHexB]
  omega

/-- `%u` parses back what `%d` printed when the remainder starts with a
non-digit. -/
theorem parseDec_toDec {n : Nat} (hn : n < 1000) (rest : List Nat)
    (hrest : ∀ y ∈ rest.take 1, isDigitB y = false) :
    parseDec (toDec n ++ rest) = some (n, rest) := by
  obtain ⟨hne, hdig, _, hval⟩ := toDecD_spec 2 n (by norm_num; omega)
  have h3 : (2 : Nat) + 1 = 3 := rfl
  rw [h3] at hne hdig hval
  have htw : (toDec n ++ rest).takeWhile isDigitB = toDec n :=
    takeWhile_all_append isDigitB (toDec n) rest hdig hrest
  unfold parseDec
  rw [htw]
  rw [if_neg (by simpa [List.isEmpty_iff] using hne)]
  rw [show decVal (toDec n) = n from hval]
  rw [List.drop_left (toDec n) rest]

/-- Same, at the end of the input. -/
theorem parseDec_toDec_nil {n : Nat} (hn : n < 1000) :
    parseDec (toDec n) = some (n, []) := by
  have h := parseDec_toDec hn [] (by intro y hy; simp at hy)
  rwa [List.append_nil] at h

/-- `sscanf "%u.%u.%u.%u%c"` parses back what `"%d.%d.%d.%d"` printed. -/
theorem parseV4_printV4 {a b c d : Nat} (ha : a < 256) (hb : b < 256)
    (hc : c < 256) (hd : d < 256) :
    parseV4 (printV4 a b c d) = some (a, b, c, d) := by
  unfold printV4 parseV4
  rw [parseDec_toDec (by omega) _ (by intro y hy; simp at hy; subst hy; decide)]
  simp only []
  rw [parseDec_toDec (by omega) _ (by intro y hy; simp at hy; subst hy; decide)]
  simp only []
  rw [parseDec_toDec (by omega) _ (by intro y hy; simp at hy; subst hy; decide)]
  simp only []
  rw [parseDec_toDec_nil (by omega)]

/-- `strtol` base 16 parses back what `%x` printed when the remainder starts
with a non-hex byte. -/
theorem parseHexGroup_toHexL {w : Nat} (hw : w < 65536) (rest : List Nat)
    (hrest : ∀ y ∈ rest.take 1, isHexB y = false) :
    parseHexGroup (toHexL w ++ rest) = some (w, rest) := by
  obtain ⟨hne, hdig, hlen, hval⟩ := toHexD_spec 3 w (by norm_num; omega)
  have h4 : (3 : Nat) + 1 = 4 := rfl
  rw [h4] at hne hdig hlen hval
  have htw : (toHexL w ++ rest).takeWhile isHexB = toHexL w :=
    takeWhile_all_append isHexB (toHexL w) rest hdig hrest
  unfold parseHexGroup
  rw [htw]
  rw [if_neg (by simpa [List.isEmpty_iff] using hne),
    if_neg (by rw [show (toHexL w).length = (toHexD 4 w).length from rfl]; omega),
    if_neg (by rw [show hexVal (toHexL w) = hexVal (toHexD 4 w) from rfl, hval]; omega)]
  rw [show hexVal (toHexL w) = hexVal (toHexD 4 w) from rfl, hval,
    Nat.mod_eq_of_lt hw, List.drop_left (toHexL w) rest]

/-- Length of a printed byte. -/
theorem toDec_length_le {n : Nat} (hn : n < 1000) : (toDec n).length ≤ 3 := by
  obtain ⟨_, _, hlen, _⟩ := toDecD_spec 2 n (by norm_num; omega)
  have h3 : (2 : Nat) + 1 = 3 := rfl
  rw [h3] at hlen
  exact hlen

theorem toHexL_length_le {w : Nat} (hw : w < 65536) : (toHexL w).length ≤ 4 := by
  obtain ⟨_, _, hlen, _⟩ := toHexD_spec 3 w (by norm_num; omega)
  have h4 : (3 : Nat) + 1 = 4 := rfl
  rw [h4] at hlen
  exact hlen

theorem printV4_length_le {a b c d : Nat} (ha : a < 256) (hb : b < 256)
    (hc : c < 256) (hd : d < 256) : (printV4 a b c d).length ≤ 15 := by
  unfold printV4
  simp only [List.length_append, List.length_cons]
  have h1 := toDec_length_le (show a < 1000 by omega)
  have h2 := toDec_length_le (show b < 1000 by omega)
  have h3 := toDec_length_le (show c < 1000 by omega)
  have h4 := toDec_length_le (show d < 1000 by omega)
  omega

/-- The IPv4 half of C7: formatting into a buffer of at least 46 bytes
succeeds and parsing the result recovers the address bytes. -/
theorem pton4_ntop4 (b : List Nat) (hb : b.length = 4)
    (hlt : ∀ x ∈ b, x < 256) (len : Nat) (hlen : 46 ≤ len) :
    ∃ s, ntop4 b len = some s ∧ pton4 s = some b := by
  rcases b with _ | ⟨b0, _ | ⟨b1, _ | ⟨b2, _ | ⟨b3, _ | ⟨b4, rest⟩⟩⟩⟩⟩ <;>
    simp at hb
  have h0 : b0 < 256 := hlt b0 (by simp)
  have h1 : b1 < 256 := hlt b1 (by simp)
  have h2 : b2 < 256 := hlt b2 (by simp)
  have h3 : b3 < 256 := hlt b3 (by simp)
  refine ⟨printV4 b0 b1 b2 b3, ?_, ?_⟩
  · unfold ntop4
    simp only [List.getD_cons_zero, List.getD_cons_succ]
    rw [if_pos (by have := printV4_length_le h0 h1 h2 h3; omega)]
  · unfold pton4
    rw [parseV4_printV4 h0 h1 h2 h3]
    show (if 255 < b0 ∨ 255 < b1 ∨ 255 < b2 ∨ 255 < b3 then none
      else some [b0, b1, b2, b3]) = some [b0, b1, b2, b3]
    rw [if_neg (by omega)]

/-! ### Zero runs and the gap scan -/

theorem getDN {l : List Nat} {i : Nat} (h : i < l.length) : l.getD i 0 = l[i] := by
  rw [List.getD_eq_getElem?_getD, List.getElem?_eq_getElem h]
  rfl

theorem runLen_step {ws : List Nat} {i : Nat} (hi : i < ws.length) :
    runLen ws i = if ws.getD i 0 = 0 then runLen ws (i + 1) + 1 else 0 := by
  unfold runLen
  rw [List.drop_eq_getElem_cons hi, List.takeWhile_cons, getDN hi]
  by_cases h0 : ws[i] = 0
  · rw [if_pos (by simp [h0]), if_pos h0]
    simp
  · rw [if_neg (by simp [h0]), if_neg h0]
    simp

theorem runLen_ge {ws : List Nat} {i : Nat} (hi : ws.length ≤ i) :
    runLen ws i = 0 := by
  unfold runLen
  rw [List.drop_eq_nil_of_le hi]
  rfl

theorem runLen_le (ws : List Nat) (i : Nat) : runLen ws i ≤ ws.length - i := by
  unfold runLen
  have h := takeWhile_length_le (fun w => w == 0) (ws.drop i)
  rw [List.length_drop] at h
  exact h

theorem runLen_zero_in (ws : List Nat) :
    ∀ (n i k : Nat), k - i ≤ n → i ≤ k → k < i + runLen ws i →
      ws.getD k 0 = 0 := by
  intro n
  induction n with
  | zero =>
      intro i k hn hik hk
      have hki : k = i := by omega
      subst hki
      have hrpos : 0 < runLen ws k := by omega
      have hkl : k < ws.length := by
        by_contra hkl
        rw [runLen_ge (by omega)] at hrpos
        omega
      rw [runLen_step hkl] at hk
      by_cases h0 : ws.getD k 0 = 0
      · exact h0
      · rw [if_neg h0] at hk; omega
  | succ n ih =>
      intro i k hn hik hk
      by_cases hki : k = i
      · subst hki
        have hrpos : 0 < runLen ws k := by omega
        have hkl : k < ws.length := by
          by_contra hkl
          rw [runLen_ge (by omega)] at hrpos
          omega
        rw [runLen_step hkl] at hk
        by_cases h0 : ws.getD k 0 = 0
        · exact h0
        · rw [if_neg h0] at hk; omega
      · have hrpos : 0 < runLen ws i := by omega
        have hil : i < ws.length := by
          by_contra hil
          rw [runLen_ge (by omega)] at hrpos
          omega
        rw [runLen_step hil] at hk
        by_cases h0 : ws.getD i 0 = 0
        · rw [if_pos h0] at hk
          exact ih (i + 1) k (by omega) (by omega) (by omega)
        · rw [if_neg h0] at hk; omega

theorem runLen_boundary (ws : List Nat) :
    ∀ (n i : Nat), ws.length - i ≤ n →
      ws.length ≤ i + runLen ws i ∨ ws.getD (i + runLen ws i) 0 ≠ 0 := by
  intro n
  induction n with
  | zero =>
      intro i hn
      left
      have := runLen_le ws i
      omega
  | succ n ih =>
      intro i hn
      by_cases hil : i < ws.length
      · rw [runLen_step hil]
        by_cases h0 : ws.getD i 0 = 0
        · rw [if_pos h0]
          rcases ih (i + 1) (by omega) with h | h
          · left; omega
          · right
            rw [show i + (runLen ws (i + 1) + 1) = i + 1 + runLen ws (i + 1)
              from by omega]
            exact h
        · rw [if_neg h0]
          right
          simpa using h0
      · left
        rw [runLen_ge (by omega)]
        omega

theorem runStart_zero {ws : List Nat} {i : Nat} (h : runStart ws i = true) :
    i < ws.length ∧ ws.getD i 0 = 0 := by
  unfold runStart at h
  rw [Bool.and_eq_true] at h
  have h1 : ws.getD i 1 = 0 := by simpa using h.1
  have hil : i < ws.length := by
    by_contra hil
    rw [List.getD_eq_getElem?_getD, List.getElem?_eq_none (by omega)] at h1
    simp at h1
  refine ⟨hil, ?_⟩
  rw [List.getD_eq_getElem?_getD, List.getElem?_eq_getElem hil] at h1 ⊢
  exact h1

/-- What the gap scan guarantees about its chosen position. -/
theorem longestGapPos_spec {ws : List Nat} {g : Nat}
    (h : longestGapPos ws = some g) :
    g < 8 ∧ ws.getD g 0 = 0 ∧ 2 ≤ runLen ws g := by
  unfold longestGapPos at h
  split_ifs at h with hb
  have inv : ∀ (l : List Nat) (acc : Nat × Option Nat),
      (∀ x ∈ l, x < 8) →
      (acc.2 = none ∨ ∃ g', acc.2 = some g' ∧ g' < 8 ∧
        ws.getD g' 0 = 0 ∧ runLen ws g' = acc.1) →
      ((l.foldl (fun b i =>
          if runStart ws i then
            if b.1 < runLen ws i then (runLen ws i, some i) else b
          else b) acc).2 = none ∨
        ∃ g', (l.foldl (fun b i =>
          if runStart ws i then
            if b.1 < runLen ws i then (runLen ws i, some i) else b
          else b) acc).2 = some g' ∧ g' < 8 ∧ ws.getD g' 0 = 0 ∧
          runLen ws g' = (l.foldl (fun b i =>
            if runStart ws i then
              if b.1 < runLen ws i then (runLen ws i, some i) else b
            else b) acc).1) := by
    intro l
    induction l with
    | nil => intro acc _ hacc; exact hacc
    | cons x l ihl =>
        intro acc hmem hacc
        rw [List.foldl_cons]
        apply ihl _ (fun y hy => hmem y (List.mem_cons_of_mem x hy))
        by_cases hrs : runStart ws x
        · rw [if_pos hrs]
          by_cases hgt : acc.1 < runLen ws x
          · rw [if_pos hgt]
            right
            exact ⟨x, rfl, hmem x (List.mem_cons_self x l),
              (runStart_zero hrs).2, rfl⟩
          · rw [if_neg hgt]
            exact hacc
        · rw [if_neg hrs]
          exact hacc
  have h2 := inv (List.range 8) (0, none)
    (fun x hx => List.mem_range.mp hx) (Or.inl rfl)
  rcases h2 with h2 | ⟨g', hg', hlt, hz, hrl⟩
  · rw [show gapBest ws = (List.range 8).foldl (fun b i =>
        if runStart ws i then
          if b.1 < runLen ws i then (runLen ws i, some i) else b
        else b) (0, none) from rfl, h2] at h
    exact absurd h (by simp)
  · rw [show gapBest ws = (List.range 8).foldl (fun b i =>
        if runStart ws i then
          if b.1 < runLen ws i then (runLen ws i, some i) else b
        else b) (0, none) from rfl, hg'] at h
    injection h with h
    subst h
    refine ⟨hlt, hz, ?_⟩
    rw [hrl]
    rw [show gapBest ws = (List.range 8).foldl (fun b i =>
        if runStart ws i then
          if b.1 < runLen ws i then (runLen ws i, some i) else b
        else b) (0, none) from rfl] at hb
    omega

theorem mem_takeWhile_pred {p : Nat → Bool} :
    ∀ {l : List Nat} {a : Nat}, a ∈ l.takeWhile p → p a = true := by
  intro l
  induction l with
  | nil => intro a ha; simp [List.takeWhile] at ha
  | cons c rest ih =>
      intro a ha
      rw [List.takeWhile_cons] at ha
      split_ifs at ha with hc
      · rcases List.mem_cons.mp ha with h | h
        · subst h; exact hc
        · exact ih h
      · simp at ha

/-- Splitting the word array around the chosen zero run. -/
theorem gap_reconstruct (ws : List Nat) (g : Nat) :
    ws = ws.take g ++ List.replicate (runLen ws g) 0 ++
      ws.drop (g + runLen ws g) := by
  have ht : (ws.drop g).takeWhile (fun w => w == 0) =
      List.replicate (runLen ws g) 0 := by
    rw [List.eq_replicate]
    refine ⟨rfl, ?_⟩
    intro b hb
    have := mem_takeWhile_pred hb
    simpa using this
  have hd : (ws.drop g).dropWhile (fun w => w == 0) =
      ws.drop (g + runLen ws g) := by
    have happ := List.takeWhile_append_dropWhile (fun w => w == 0) (ws.drop g)
    have h1 := List.drop_left ((ws.drop g).takeWhile (fun w => w == 0))
      ((ws.drop g).dropWhile (fun w => w == 0))
    rw [happ, List.drop_drop] at h1
    exact h1.symm
  conv_lhs => rw [← List.take_append_drop g ws,
    ← List.takeWhile_append_dropWhile (fun w => w == 0) (ws.drop g)]
  rw [ht, hd, List.append_assoc]

/-! ### Parsing the printed groups -/

/-- One-step unfolding of the scan loop. -/
theorem parseLoopF_cons (f : Nat) (c : Nat) (rest : List Nat)
    (gap : Option Nat) (hw : List Nat) :
    parseLoopF (f + 1) (c :: rest) gap hw =
      if 7 < hw.length then none
      else if isHexB c then
        match parseHexGroup (c :: rest) with
        | none => none
        | some (w, s1) =>
          match s1 with
          | [] => some (hw ++ [w], gap)
          | 58 :: s2 => parseLoopF f s2 gap (hw ++ [w])
          | _ => none
      else if c = 58 ∧ hw.length ≠ 0 ∧ gap = none then
        parseLoopF f rest (some hw.length) hw
      else if c = 58 ∧ hw.length = 0 ∧ gap = none ∧ rest.headD 0 = 58 then
        parseLoopF f rest.tail (some 0) hw
      else none := rfl

theorem toHexL_ne_nil {w : Nat} (hwv : w < 65536) : toHexL w ≠ [] := by
  obtain ⟨hne, _, _, _⟩ := toHexD_spec 3 w (by norm_num; omega)
  exact hne

theorem toHexL_head_hex {w : Nat} (hwv : w < 65536) {c : Nat} {cs : List Nat}
    (hcons : toHexL w = c :: cs) : isHexB c = true := by
  obtain ⟨_, hdig, _, _⟩ := toHexD_spec 3 w (by norm_num; omega)
  have h4 : (3 : Nat) + 1 = 4 := rfl
  rw [h4] at hdig
  exact hdig c (by rw [show toHexD 4 w = toHexL w from rfl, hcons]; simp)

/-- Scanning a final hex group. -/
theorem parseLoopF_hex_end {fuel : Nat} {hw : List Nat} {gap0 : Option Nat}
    {w : Nat} (hwv : w < 65536) (hhw : hw.length ≤ 7) (hfuel : 1 ≤ fuel) :
    parseLoopF fuel (toHexL w) gap0 hw = some (hw ++ [w], gap0) := by
  obtain ⟨c, cs, hcons⟩ := List.exists_cons_of_ne_nil (toHexL_ne_nil hwv)
  cases fuel with
  | zero => omega
  | succ f =>
      rw [hcons, parseLoopF_cons, if_neg (by omega),
        if_pos (toHexL_head_hex hwv hcons), ← hcons]
      rw [show toHexL w = toHexL w ++ [] from (List.append_nil _).symm]
      rw [parseHexGroup_toHexL hwv [] (by intro y hy; simp at hy)]

/-- Scanning a hex group followed by `:`. -/
theorem parseLoopF_hex_colon {f : Nat} {hw : List Nat} {gap0 : Option Nat}
    {w : Nat} {s2 : List Nat} (hwv : w < 65536) (hhw : hw.length ≤ 7) :
    parseLoopF (f + 1) (toHexL w ++ 58 :: s2) gap0 hw =
      parseLoopF f s2 gap0 (hw ++ [w]) := by
  obtain ⟨c, cs, hcons⟩ := List.exists_cons_of_ne_nil (toHexL_ne_nil hwv)
  rw [hcons, List.cons_append, parseLoopF_cons, if_neg (by omega),
    if_pos (toHexL_head_hex hwv hcons), ← List.cons_append, ← hcons]
  rw [parseHexGroup_toHexL hwv (58 :: s2)
    (by intro y hy; simp at hy; subst hy; decide)]

/-- Beyond the last word the printer emits nothing. -/
theorem buildGroups_ge8 (ws : List Nat) (gap : Option Nat) :
    ∀ (pf i : Nat), 8 ≤ i → buildGroups ws gap pf i = [] := by
  intro pf i hi
  cases pf with
  | zero => rfl
  | succ pf =>
      show (if i < 8 then _ else []) = []
      rw [if_neg (by omega)]

theorem toHexL_length_pos {w : Nat} (hwv : w < 65536) :
    1 ≤ (toHexL w).length := by
  have := toHexL_ne_nil hwv
  cases h : toHexL w with
  | nil => exact absurd h this
  | cons c cs => simp

/-- Words of the array are 16-bit values. -/
theorem wordLt {ws : List Nat} (hlen8 : ws.length = 8)
    (hwlt : ∀ w ∈ ws, w < 65536) {i : Nat} (hi : i < 8) :
    ws.getD i 0 < 65536 := by
  have hil : i < ws.length := by omega
  rw [getDN hil]
  exact hwlt _ (List.getElem_mem hil)

/-- Phase B of the scan: after the gap the printer emits plain groups and the
parser appends the remaining words. -/
theorem parseLoop_phaseB {ws : List Nat} (hlen8 : ws.length = 8)
    (hwlt : ∀ w ∈ ws, w < 65536) (g : Nat) :
    ∀ (pf i : Nat) (hw : List Nat) (fuel : Nat),
      8 - i ≤ pf → g < i → hw.length + (8 - i) ≤ 8 →
      (buildGroups ws (some g) pf i).length ≤ fuel →
      parseLoopF fuel (buildGroups ws (some g) pf i) (some g) hw =
        some (hw ++ ws.drop i, some g) := by
  intro pf
  induction pf with
  | zero =>
      intro i hw fuel hpf hgi hcnt hfuel
      have hi8 : 8 ≤ i := by omega
      rw [show buildGroups ws (some g) 0 i = [] from rfl]
      rw [show parseLoopF fuel [] (some g) hw = some (hw, some g) from by
        cases fuel <;> rfl]
      rw [List.drop_eq_nil_of_le (by omega), List.append_nil]
  | succ pf ih =>
      intro i hw fuel hpf hgi hcnt hfuel
      by_cases hi8 : i < 8
      · have hbuild : buildGroups ws (some g) (pf + 1) i =
            toHexL (ws.getD i 0) ++ (if i = 7 then [] else [58]) ++
              buildGroups ws (some g) pf (i + 1) := by
          show (if i < 8 then _ else []) = _
          rw [if_pos hi8, if_neg (by
            rintro ⟨-, hgsome⟩
            injection hgsome with hgsome
            omega)]
        rw [hbuild] at hfuel ⊢
        have hwv : ws.getD i 0 < 65536 := wordLt hlen8 hwlt hi8
        have hhw : hw.length ≤ 7 := by omega
        by_cases hi7 : i = 7
        · subst hi7
          rw [if_pos rfl, List.append_nil,
            buildGroups_ge8 ws (some g) pf 8 (by omega), List.append_nil]
            at hfuel ⊢
          rw [parseLoopF_hex_end hwv hhw (by
            have := toHexL_length_pos hwv
            omega)]
          rw [List.drop_eq_getElem_cons (show 7 < ws.length by omega),
            List.drop_eq_nil_of_le (by omega), ← getDN]
        · rw [if_neg hi7] at hfuel ⊢
          have hlenstr : 1 ≤ fuel := by
            have := toHexL_length_pos hwv
            simp only [List.length_append, List.length_cons] at hfuel
            omega
          obtain ⟨f, rfl⟩ : ∃ f, fuel = f + 1 :=
            ⟨fuel - 1, by omega⟩
          rw [List.append_assoc, List.singleton_append,
            parseLoopF_hex_colon hwv hhw]
          rw [ih (i + 1) (hw ++ [ws.getD i 0]) f (by omega) (by omega)
            (by simp; omega) (by
              simp only [List.length_append, List.length_cons,
                List.singleton_append] at hfuel ⊢
              have := toHexL_length_pos hwv
              omega)]
          rw [List.append_assoc, List.singleton_append,
            getDN (show i < ws.length by omega),
            ← List.drop_eq_getElem_cons (show i < ws.length by omega)]
      · rw [buildGroups_ge8 ws (some g) (pf + 1) i (by omega)]
        rw [show parseLoopF fuel [] (some g) hw = some (hw, some g) from by
          cases fuel <;> rfl]
        rw [List.drop_eq_nil_of_le (by omega), List.append_nil]

/-- Phase A without a gap: the whole scan is plain hex groups. -/
theorem parseLoop_phaseA_none {ws : List Nat} (hlen8 : ws.length = 8)
    (hwlt : ∀ w ∈ ws, w < 65536) :
    ∀ (pf i : Nat) (hw : List Nat) (fuel : Nat),
      8 - i ≤ pf → hw.length = i → i ≤ 8 →
      (buildGroups ws none pf i).length ≤ fuel →
      parseLoopF fuel (buildGroups ws none pf i) none hw =
        some (hw ++ ws.drop i, none) := by
  intro pf
  induction pf with
  | zero =>
      intro i hw fuel hpf hhw hi8 hfuel
      rw [show buildGroups ws none 0 i = [] from rfl]
      rw [show parseLoopF fuel [] none hw = some (hw, none) from by
        cases fuel <;> rfl]
      rw [List.drop_eq_nil_of_le (by omega), List.append_nil]
  | succ pf ih =>
      intro i hw fuel hpf hhw hile hfuel
      by_cases hi8 : i < 8
      · have hbuild : buildGroups ws none (pf + 1) i =
            toHexL (ws.getD i 0) ++ (if i = 7 then [] else [58]) ++
              buildGroups ws none pf (i + 1) := by
          show (if i < 8 then _ else []) = _
          rw [if_pos hi8, if_neg (by
            rintro ⟨-, hgsome⟩
            exact Option.noConfusion hgsome)]
        rw [hbuild] at hfuel ⊢
        have hwv : ws.getD i 0 < 65536 := wordLt hlen8 hwlt hi8
        have hhw7 : hw.length ≤ 7 := by omega
        by_cases hi7 : i = 7
        · subst hi7
          rw [if_pos rfl, List.append_nil,
            buildGroups_ge8 ws none pf 8 (by omega), List.append_nil]
            at hfuel ⊢
          rw [parseLoopF_hex_end hwv hhw7 (by
            have := toHexL_length_pos hwv
            omega)]
          rw [List.drop_eq_getElem_cons (show 7 < ws.length by omega),
            List.drop_eq_nil_of_le (by omega), ← getDN]
        · rw [if_neg hi7] at hfuel ⊢
          have hlenstr : 1 ≤ fuel := by
            have := toHexL_length_pos hwv
            simp only [List.length_append, List.length_cons] at hfuel
            omega
          obtain ⟨f, rfl⟩ : ∃ f, fuel = f + 1 :=
            ⟨fuel - 1, by omega⟩
          rw [List.append_assoc, List.singleton_append,
            parseLoopF_hex_colon hwv hhw7]
          rw [ih (i + 1) (hw ++ [ws.getD i 0]) f (by omega) (by simp; omega)
            (by omega) (by
              simp only [List.length_append, List.length_cons,
                List.singleton_append] at hfuel ⊢
              have := toHexL_length_pos hwv
              omega)]
          rw [List.append_assoc, List.singleton_append,
            getDN (show i < ws.length by omega),
            ← List.drop_eq_getElem_cons (show i < ws.length by omega)]
      · rw [buildGroups_ge8 ws none (pf + 1) i (by omega)]
        rw [show parseLoopF fuel [] none hw = some (hw, none) from by
          cases fuel <;> rfl]
        rw [List.drop_eq_nil_of_le (by omega), List.append_nil]

/-- Phase A up to the gap: hex groups, then the `::` token hands over to
phase B with the gap position recorded. -/
theorem parseLoop_phaseA_some {ws : List Nat} (hlen8 : ws.length = 8)
    (hwlt : ∀ w ∈ ws, w < 65536) {g : Nat} (hg8 : g < 8)
    (hg0 : ws.getD g 0 = 0) (hgl : 2 ≤ runLen ws g) :
    ∀ (pf i : Nat) (hw : List Nat) (fuel : Nat),
      8 - i ≤ pf → hw.length = i → i ≤ g →
      (buildGroups ws (some g) pf i).length ≤ fuel →
      parseLoopF fuel (buildGroups ws (some g) pf i) none hw =
        some ((hw ++ (ws.drop i).take (g - i)) ++ ws.drop (g + runLen ws g),
          some g) := by
  intro pf
  induction pf with
  | zero =>
      intro i hw fuel hpf hhw hig hfuel
      omega
  | succ pf ih =>
      intro i hw fuel hpf hhw hig hfuel
      have hi8 : i < 8 := by omega
      by_cases hieg : i = g
      · subst hieg
        have hbuild : buildGroups ws (some i) (pf + 1) i =
            (if i = 0 then [58, 58] else [58]) ++
              buildGroups ws (some i) pf (i + runLen ws i) := by
          show (if i < 8 then _ else []) = _
          rw [if_pos hi8, if_pos ⟨hg0, rfl⟩]
        rw [hbuild] at hfuel ⊢
        by_cases hgz : i = 0
        · subst hgz
          have hwnil : hw = [] := List.eq_nil_of_length_eq_zero hhw
          subst hwnil
          rw [if_pos rfl] at hfuel ⊢
          have hf2 : 1 ≤ fuel := by
            simp only [List.length_append, List.length_cons,
              List.length_nil] at hfuel
            omega
          obtain ⟨f, rfl⟩ : ∃ f, fuel = f + 1 := ⟨fuel - 1, by omega⟩
          rw [List.cons_append, List.cons_append, List.nil_append,
            parseLoopF_cons]
          rw [if_neg (by simp), if_neg (by decide),
            if_neg (by rintro ⟨-, h, -⟩; exact h rfl),
            if_pos ⟨rfl, rfl, rfl, rfl⟩]
          rw [show (58 :: buildGroups ws (some 0) pf (0 + runLen ws 0)).tail =
            buildGroups ws (some 0) pf (0 + runLen ws 0) from rfl]
          rw [parseLoop_phaseB hlen8 hwlt 0 pf (0 + runLen ws 0) [] f
            (by omega) (by omega) (by omega) (by
              simp only [List.cons_append, List.length_cons,
                List.nil_append] at hfuel
              omega)]
          simp
        · rw [if_neg hgz] at hfuel ⊢
          have hf1 : 1 ≤ fuel := by
            simp only [List.length_append, List.length_cons] at hfuel
            omega
          obtain ⟨f, rfl⟩ : ∃ f, fuel = f + 1 := ⟨fuel - 1, by omega⟩
          rw [List.singleton_append, parseLoopF_cons]
          rw [if_neg (by omega), if_neg (by decide),
            if_pos ⟨rfl, by omega, rfl⟩, hhw]
          rw [parseLoop_phaseB hlen8 hwlt i pf (i + runLen ws i) hw f
            (by omega) (by omega) (by
              have := runLen_le ws i
              omega) (by
              simp only [List.singleton_append, List.length_cons] at hfuel
              omega)]
          simp
      · have hbuild : buildGroups ws (some g) (pf + 1) i =
            toHexL (ws.getD i 0) ++ (if i = 7 then [] else [58]) ++
              buildGroups ws (some g) pf (i + 1) := by
          show (if i < 8 then _ else []) = _
          rw [if_pos hi8, if_neg (by
            rintro ⟨-, hgsome⟩
            injection hgsome with hgsome
            omega)]
        rw [hbuild] at hfuel ⊢
        have hwv : ws.getD i 0 < 65536 := wordLt hlen8 hwlt hi8
        have hhw7 : hw.length ≤ 7 := by omega
        rw [if_neg (show ¬ i = 7 by omega)] at hfuel ⊢
        have hlenstr : 1 ≤ fuel := by
          have := toHexL_length_pos hwv
          simp only [List.length_append, List.length_cons] at hfuel
          omega
        obtain ⟨f, rfl⟩ : ∃ f, fuel = f + 1 := ⟨fuel - 1, by omega⟩
        rw [List.append_assoc, List.singleton_append,
          parseLoopF_hex_colon hwv hhw7]
        rw [ih (i + 1) (hw ++ [ws.getD i 0]) f (by omega) (by simp; omega)
          (by omega) (by
            simp only [List.length_append, List.length_cons,
              List.singleton_append] at hfuel ⊢
            have := toHexL_length_pos hwv
            omega)]
        have hsplit : (ws.drop i).take (g - i) =
            ws.getD i 0 :: (ws.drop (i + 1)).take (g - (i + 1)) := by
          rw [getDN (show i < ws.length by omega),
            List.drop_eq_getElem_cons (show i < ws.length by omega),
            show g - i = g - (i + 1) + 1 from by omega, List.take_succ_cons]
        rw [hsplit]
        simp

/-! ### Putting the IPv6 round trip together -/

theorem toHexL_mem_hex {w : Nat} (hwv : w < 65536) {c : Nat}
    (hc : c ∈ toHexL w) : isHexB c = true := by
  obtain ⟨-, hdig, -, -⟩ := toHexD_spec 3 w (by norm_num; omega)
  exact hdig c hc

theorem toDec_ne_nil {n : Nat} (hn : n < 1000) : toDec n ≠ [] := by
  obtain ⟨hne, -, -, -⟩ := toDecD_spec 2 n (by norm_num; omega)
  exact hne

theorem toDec_mem_digit {n : Nat} (hn : n < 1000) {c : Nat}
    (hc : c ∈ toDec n) : isDigitB c = true := by
  obtain ⟨-, hdig, -, -⟩ := toDecD_spec 2 n (by norm_num; omega)
  exact hdig c hc

theorem findDot_none : ∀ (s : List Nat), (∀ c ∈ s, c ≠ 46) →
    findDot s = none := by
  intro s
  induction s with
  | nil => intro _; rfl
  | cons c rest ih =>
      intro h
      show (if c = 46 then some 0 else (findDot rest).map (· + 1)) = none
      rw [if_neg (h c (List.mem_cons_self c rest)),
        ih (fun a ha => h a (List.mem_cons_of_mem c ha))]
      rfl

theorem findDot_append_dot : ∀ (p r : List Nat), (∀ c ∈ p, c ≠ 46) →
    findDot (p ++ 46 :: r) = some p.length := by
  intro p
  induction p with
  | nil =>
      intro r _
      show (if (46 : Nat) = 46 then some 0 else _) = some 0
      rw [if_pos rfl]
  | cons c p ih =>
      intro r h
      rw [List.cons_append]
      show (if c = 46 then some 0 else (findDot (p ++ 46 :: r)).map (· + 1)) = _
      rw [if_neg (h c (List.mem_cons_self c p)),
        ih r (fun a ha => h a (List.mem_cons_of_mem c ha))]
      rfl

/-- Everything the IPv6 group printer emits is a hex digit or `:`. -/
theorem buildGroups_no_dot {ws : List Nat}
    (hwb : ∀ j, ws.getD j 0 < 65536) (gap : Option Nat) :
    ∀ (pf i : Nat), ∀ c ∈ buildGroups ws gap pf i, c ≠ 46 := by
  intro pf
  induction pf with
  | zero =>
      intro i c hc
      rw [show buildGroups ws gap 0 i = [] from rfl] at hc
      simp at hc
  | succ pf ih =>
      intro i c hc
      rw [show buildGroups ws gap (pf + 1) i =
          (if i < 8 then
            if ws.getD i 0 = 0 ∧ gap = some i then
              (if i = 0 then [58, 58] else [58]) ++
                buildGroups ws gap pf (i + runLen ws i)
            else
              toHexL (ws.getD i 0) ++ (if i = 7 then [] else [58]) ++
                buildGroups ws gap pf (i + 1)
          else []) from rfl] at hc
      split_ifs at hc with h1 h2 h3 h3
      · rcases List.mem_append.mp hc with h | h
        · simp at h
          omega
        · exact ih _ c h
      · rcases List.mem_append.mp hc with h | h
        · simp at h
          omega
        · exact ih _ c h
      · rcases List.mem_append.mp hc with h | h
        · rcases List.mem_append.mp h with h | h
          · exact isHexB_ne_46 (toHexL_mem_hex (hwb i) h)
          · simp at h
        · exact ih _ c h
      · rcases List.mem_append.mp hc with h | h
        · rcases List.mem_append.mp h with h | h
          · exact isHexB_ne_46 (toHexL_mem_hex (hwb i) h)
          · simp at h
            omega
        · exact ih _ c h
      · simp at hc

/-- The printed groups are short: at most five bytes per remaining word. -/
theorem buildGroups_length {ws : List Nat} (hlen8 : ws.length = 8)
    (hwb : ∀ j, ws.getD j 0 < 65536) (gap : Option Nat) :
    ∀ (pf i : Nat), (buildGroups ws gap pf i).length ≤ 5 * (8 - i) := by
  intro pf
  induction pf with
  | zero =>
      intro i
      rw [show buildGroups ws gap 0 i = [] from rfl]
      simp
  | succ pf ih =>
      intro i
      rw [show buildGroups ws gap (pf + 1) i =
          (if i < 8 then
            if ws.getD i 0 = 0 ∧ gap = some i then
              (if i = 0 then [58, 58] else [58]) ++
                buildGroups ws gap pf (i + runLen ws i)
            else
              toHexL (ws.getD i 0) ++ (if i = 7 then [] else [58]) ++
                buildGroups ws gap pf (i + 1)
          else []) from rfl]
      split_ifs with h1 h2 h3 h3
      · have hrl : 1 ≤ runLen ws i := by
          rw [runLen_step (by omega), if_pos h2.1]
          omega
        have := ih (i + runLen ws i)
        simp only [List.length_append, List.length_cons, List.length_nil]
        omega
      · have hrl : 1 ≤ runLen ws i := by
          rw [runLen_step (by omega), if_pos h2.1]
          omega
        have := ih (i + runLen ws i)
        simp only [List.length_append, List.length_cons, List.length_nil]
        omega
      · have := ih (i + 1)
        have hx := toHexL_length_le (hwb i)
        simp only [List.length_append, List.length_nil]
        omega
      · have := ih (i + 1)
        have hx := toHexL_length_le (hwb i)
        simp only [List.length_append, List.length_cons, List.length_nil]
        omega
      · simp

theorem getD_lt_of_all {b : List Nat} (hlt : ∀ x ∈ b, x < 256) (i : Nat) :
    b.getD i 0 < 256 := by
  by_cases h : i < b.length
  · rw [getDN h]
    exact hlt _ (List.getElem_mem h)
  · rw [List.getD_eq_getElem?_getD, List.getElem?_eq_none (by omega)]
    norm_num

theorem wordsOf_length (b : List Nat) : (wordsOf b).length = 8 := by
  simp [wordsOf]

theorem wordsOf_mem_lt {b : List Nat} (hlt : ∀ x ∈ b, x < 256) :
    ∀ w ∈ wordsOf b, w < 65536 := by
  intro w hw
  simp only [wordsOf, List.mem_map, List.mem_range] at hw
  obtain ⟨i, -, rfl⟩ := hw
  have h1 := getD_lt_of_all hlt (2 * i)
  have h2 := getD_lt_of_all hlt (2 * i + 1)
  omega

theorem wordsOf_getD_lt {b : List Nat} (hlt : ∀ x ∈ b, x < 256) (j : Nat) :
    (wordsOf b).getD j 0 < 65536 := by
  by_cases h : j < 8
  · rw [getDN (by rw [wordsOf_length]; omega)]
    exact wordsOf_mem_lt hlt _ (List.getElem_mem (by rw [wordsOf_length]; omega))
  · rw [List.getD_eq_getElem?_getD,
      List.getElem?_eq_none (by rw [wordsOf_length]; omega)]
    norm_num

/-- The byte store of the parser undoes the word extraction of the printer. -/
theorem wordsToBytes_wordsOf {b : List Nat} (hb : b.length = 16)
    (hlt : ∀ x ∈ b, x < 256) : wordsToBytes (wordsOf b) = b := by
  rcases b with _ | ⟨b0, _ | ⟨b1, _ | ⟨b2, _ | ⟨b3, _ | ⟨b4, _ | ⟨b5, _ | ⟨b6,
    _ | ⟨b7, _ | ⟨b8, _ | ⟨b9, _ | ⟨b10, _ | ⟨b11, _ | ⟨b12, _ | ⟨b13,
    _ | ⟨b14, _ | ⟨b15, _ | ⟨b16, rest⟩⟩⟩⟩⟩⟩⟩⟩⟩⟩⟩⟩⟩⟩⟩⟩⟩ <;> simp at hb
  have h1 := hlt b1 (by simp)
  have h3 := hlt b3 (by simp)
  have h5 := hlt b5 (by simp)
  have h7 := hlt b7 (by simp)
  have h9 := hlt b9 (by simp)
  have h11 := hlt b11 (by simp)
  have h13 := hlt b13 (by simp)
  have h15 := hlt b15 (by simp)
  simp [wordsToBytes, wordsOf, List.range_succ]
  omega

theorem pton6_eq_of_findDot_none {s : List Nat} (hfd : findDot s = none) :
    pton6 s =
      match parseLoopF s.length s none [] with
      | none => none
      | some (hw, gap) => assembleWords hw gap none := by
  unfold pton6
  rw [hfd]

theorem pton6_eq_of_findDot {s : List Nat} {d : Nat}
    (hfd : findDot s = some (d + 1)) :
    pton6 s =
      match parseV4 (s.drop
          ((d + 1) - ((s.take (d + 1)).reverse.takeWhile isDigitB).length)) with
      | none => none
      | some (v1, v2, v3, v4) =>
          if 255 < v1 ∨ 255 < v2 ∨ 255 < v3 ∨ 255 < v4 then none
          else
            match parseLoopF
                ((d + 1) - ((s.take (d + 1)).reverse.takeWhile isDigitB).length)
                (s.take ((d + 1) -
                  ((s.take (d + 1)).reverse.takeWhile isDigitB).length))
                none [] with
            | none => none
            | some (hw, gap) =>
                assembleWords hw gap (some [v1 * 256 + v2, v3 * 256 + v4]) := by
  unfold pton6
  rw [hfd]
  exact rfl

theorem assembleWords_nogap {hw : List Nat} (h8 : hw.length = 8) :
    assembleWords hw none none = some (wordsToBytes hw) := by
  unfold assembleWords
  simp [h8]

theorem assembleWords_gap {hw : List Nat} {g : Nat} (hg : g ≤ hw.length)
    (hlen : hw.length < 8) :
    assembleWords hw (some g) none =
      some (wordsToBytes (hw.take g ++ List.replicate (8 - hw.length) 0 ++
        hw.drop g)) := by
  simp only [assembleWords, Option.isSome_none, Bool.false_eq_true, if_false,
    Option.getD_none, Nat.add_zero]
  rw [if_neg (by simp; omega)]
  rw [if_neg (by omega)]
  simp

theorem assembleWords_v4 {hw : List Nat} {g x y : Nat} (hg : g ≤ hw.length)
    (hlen : hw.length + 2 < 8) :
    assembleWords hw (some g) (some [x, y]) =
      some (wordsToBytes (hw.take g ++ List.replicate (8 - (hw.length + 2)) 0 ++
        hw.drop g ++ [x, y])) := by
  simp only [assembleWords, Option.isSome_some, if_true, Option.getD_some]
  rw [if_neg (by simp; omega)]
  rw [if_neg (by omega)]

/-- Parsing a string of the form `<no-dot prefix> ++ <dotted quad>`: the dot
scan isolates the prefix, the quad parses with `sscanf`, and the word loop
runs on the prefix alone. -/
theorem pton6_split (p : List Nat) (v1 v2 v3 v4 : Nat)
    (h1 : v1 < 256) (h2 : v2 < 256) (h3 : v3 < 256) (h4 : v4 < 256)
    (hp46 : ∀ c ∈ p, c ≠ 46)
    (hpd : ∀ y ∈ p.reverse.take 1, isDigitB y = false) :
    pton6 (p ++ printV4 v1 v2 v3 v4) =
      match parseLoopF p.length p none [] with
      | none => none
      | some (hw, gap) =>
          assembleWords hw gap (some [v1 * 256 + v2, v3 * 256 + v4]) := by
  have hk1 : 1 ≤ (toDec v1).length := by
    cases hcons : toDec v1 with
    | nil => exact absurd hcons (toDec_ne_nil (by omega))
    | cons c cs => simp
  have hshape : p ++ printV4 v1 v2 v3 v4 =
      (p ++ toDec v1) ++
        46 :: (toDec v2 ++ 46 :: (toDec v3 ++ 46 :: toDec v4)) := by
    simp [printV4]
  have hfd0 : findDot (p ++ printV4 v1 v2 v3 v4) =
      some (p.length + (toDec v1).length) := by
    rw [hshape]
    rw [findDot_append_dot (p ++ toDec v1) _ (by
      intro c hc
      rcases List.mem_append.mp hc with h | h
      · exact hp46 c h
      · exact isDigitB_ne_46 (toDec_mem_digit (by omega) h))]
    rw [List.length_append]
  have hfd : findDot (p ++ printV4 v1 v2 v3 v4) =
      some ((p.length + (toDec v1).length - 1) + 1) := by
    rw [hfd0]
    congr 1
    omega
  rw [pton6_eq_of_findDot hfd]
  have hD : p.length + (toDec v1).length - 1 + 1 =
      p.length + (toDec v1).length := by omega
  rw [hD]
  have htake : (p ++ printV4 v1 v2 v3 v4).take
      (p.length + (toDec v1).length) = p ++ toDec v1 := by
    rw [hshape]
    exact List.take_left' (by simp)
  rw [htake]
  have hdig : (p ++ toDec v1).reverse.takeWhile isDigitB =
      (toDec v1).reverse := by
    rw [List.reverse_append]
    exact takeWhile_all_append isDigitB _ _
      (by intro x hx; exact toDec_mem_digit (by omega) (List.mem_reverse.mp hx))
      hpd
  rw [hdig, List.length_reverse]
  have heow : p.length + (toDec v1).length - (toDec v1).length =
      p.length := by omega
  rw [heow]
  rw [show (p ++ printV4 v1 v2 v3 v4).drop p.length = printV4 v1 v2 v3 v4 from
    List.drop_left p _]
  rw [show (p ++ printV4 v1 v2 v3 v4).take p.length = p from List.take_left p _]
  rw [parseV4_printV4 h1 h2 h3 h4]
  show (if 255 < v1 ∨ 255 < v2 ∨ 255 < v3 ∨ 255 < v4 then none
    else match parseLoopF p.length p none [] with
      | none => none
      | some (hw, gap) =>
          assembleWords hw gap (some [v1 * 256 + v2, v3 * 256 + v4])) = _
  rw [if_neg (by omega)]

/-- Parsing the formatted IPv6 string recovers the address bytes. -/
theorem pton6_ntop6core {b : List Nat} (hb : b.length = 16)
    (hlt : ∀ x ∈ b, x < 256) : pton6 (ntop6core b) = some b := by
  rcases b with _ | ⟨b0, _ | ⟨b1, _ | ⟨b2, _ | ⟨b3, _ | ⟨b4, _ | ⟨b5, _ | ⟨b6,
    _ | ⟨b7, _ | ⟨b8, _ | ⟨b9, _ | ⟨b10, _ | ⟨b11, _ | ⟨b12, _ | ⟨b13,
    _ | ⟨b14, _ | ⟨b15, _ | ⟨b16, rest⟩⟩⟩⟩⟩⟩⟩⟩⟩⟩⟩⟩⟩⟩⟩⟩⟩ <;> simp at hb
  have h0 := hlt b0 (by simp)
  have h1 := hlt b1 (by simp)
  have h2 := hlt b2 (by simp)
  have h3 := hlt b3 (by simp)
  have h4 := hlt b4 (by simp)
  have h5b := hlt b5 (by simp)
  have h6 := hlt b6 (by simp)
  have h7 := hlt b7 (by simp)
  have h8 := hlt b8 (by simp)
  have h9 := hlt b9 (by simp)
  have h10 := hlt b10 (by simp)
  have h11 := hlt b11 (by simp)
  have h12 := hlt b12 (by simp)
  have h13 := hlt b13 (by simp)
  have h14 := hlt b14 (by simp)
  have h15 := hlt b15 (by simp)
  have hwsof : wordsOf [b0, b1, b2, b3, b4, b5, b6, b7, b8, b9, b10, b11,
      b12, b13, b14, b15] =
      [b0 * 256 + b1, b2 * 256 + b3, b4 * 256 + b5, b6 * 256 + b7,
        b8 * 256 + b9, b10 * 256 + b11, b12 * 256 + b13, b14 * 256 + b15] :=
    rfl
  simp only [ntop6core]
  rw [hwsof]
  simp only [List.getD_cons_zero, List.getD_cons_succ]
  split_ifs with hspec h5
  · -- "::a.b.c.d"
    obtain ⟨e0, e1, e2, e3, e4, -⟩ := hspec
    rw [show (58 :: 58 :: printV4 b12 b13 b14 b15 : List Nat) =
      [58, 58] ++ printV4 b12 b13 b14 b15 from rfl]
    rw [pton6_split [58, 58] b12 b13 b14 b15 h12 h13 h14 h15
      (by decide) (by decide)]
    rw [show parseLoopF ([58, 58] : List Nat).length [58, 58] none [] =
      some ([], some 0) from rfl]
    show assembleWords [] (some 0)
      (some [b12 * 256 + b13, b14 * 256 + b15]) = _
    rw [assembleWords_v4 (by simp) (by simp)]
    rw [show (([] : List Nat).take 0 ++
        List.replicate (8 - (([] : List Nat).length + 2)) 0 ++
        ([] : List Nat).drop 0 ++
        [b12 * 256 + b13, b14 * 256 + b15]) =
      [0, 0, 0, 0, 0, 0, b12 * 256 + b13, b14 * 256 + b15] from rfl]
    rw [show wordsToBytes [0, 0, 0, 0, 0, 0, b12 * 256 + b13,
        b14 * 256 + b15] =
      [0, 0, 0, 0, 0, 0, 0, 0, 0, 0, 0, 0, (b12 * 256 + b13) / 256,
        (b12 * 256 + b13) % 256, (b14 * 256 + b15) / 256,
        (b14 * 256 + b15) % 256] from rfl]
    simp only [Option.some.injEq, List.cons.injEq, and_true]
    omega
  · -- "::ffff:a.b.c.d"
    obtain ⟨e0, e1, e2, e3, e4, hLR⟩ := hspec
    rcases hLR with ⟨h50, -⟩ | h5ff
    · exact absurd h50 h5
    rw [h5ff]
    rw [show (58 :: 58 :: (toHexL 65535 ++ 58 :: printV4 b12 b13 b14 b15) :
        List Nat) =
      [58, 58, 102, 102, 102, 102, 58] ++ printV4 b12 b13 b14 b15 from rfl]
    rw [pton6_split [58, 58, 102, 102, 102, 102, 58] b12 b13 b14 b15
      h12 h13 h14 h15 (by decide) (by decide)]
    rw [show parseLoopF ([58, 58, 102, 102, 102, 102, 58] : List Nat).length
      [58, 58, 102, 102, 102, 102, 58] none [] =
      some ([65535], some 0) from rfl]
    show assembleWords [65535] (some 0)
      (some [b12 * 256 + b13, b14 * 256 + b15]) = _
    rw [assembleWords_v4 (by simp) (by simp)]
    rw [show (([65535] : List Nat).take 0 ++
        List.replicate (8 - (([65535] : List Nat).length + 2)) 0 ++
        ([65535] : List Nat).drop 0 ++
        [b12 * 256 + b13, b14 * 256 + b15]) =
      [0, 0, 0, 0, 0, 65535, b12 * 256 + b13, b14 * 256 + b15] from rfl]
    rw [show wordsToBytes [0, 0, 0, 0, 0, 65535, b12 * 256 + b13,
        b14 * 256 + b15] =
      [0, 0, 0, 0, 0, 0, 0, 0, 0, 0, 255, 255, (b12 * 256 + b13) / 256,
        (b12 * 256 + b13) % 256, (b14 * 256 + b15) / 256,
        (b14 * 256 + b15) % 256] from rfl]
    simp only [Option.some.injEq, List.cons.injEq, and_true]
    omega
  · -- general grouped form
    have hW8 : ([b0 * 256 + b1, b2 * 256 + b3, b4 * 256 + b5, b6 * 256 + b7,
        b8 * 256 + b9, b10 * 256 + b11, b12 * 256 + b13, b14 * 256 + b15] :
        List Nat).length = 8 := rfl
    have hWm : ∀ w ∈ ([b0 * 256 + b1, b2 * 256 + b3, b4 * 256 + b5,
        b6 * 256 + b7, b8 * 256 + b9, b10 * 256 + b11, b12 * 256 + b13,
        b14 * 256 + b15] : List Nat), w < 65536 := by
      intro w hw
      simp at hw
      omega
    have hWd : ∀ j, ([b0 * 256 + b1, b2 * 256 + b3, b4 * 256 + b5,
        b6 * 256 + b7, b8 * 256 + b9, b10 * 256 + b11, b12 * 256 + b13,
        b14 * 256 + b15] : List Nat).getD j 0 < 65536 := by
      intro j
      by_cases hj : j < 8
      · rw [getDN (by rw [hW8]; omega)]
        exact hWm _ (List.getElem_mem (by rw [hW8]; omega))
      · rw [List.getD_eq_getElem?_getD, List.getElem?_eq_none (by rw [hW8]; omega)]
        norm_num
    have hnd : findDot (buildGroups [b0 * 256 + b1, b2 * 256 + b3,
        b4 * 256 + b5, b6 * 256 + b7, b8 * 256 + b9, b10 * 256 + b11,
        b12 * 256 + b13, b14 * 256 + b15]
        (longestGapPos [b0 * 256 + b1, b2 * 256 + b3, b4 * 256 + b5,
          b6 * 256 + b7, b8 * 256 + b9, b10 * 256 + b11, b12 * 256 + b13,
          b14 * 256 + b15]) 8 0) = none :=
      findDot_none _ (buildGroups_no_dot hWd _ 8 0)
    rw [pton6_eq_of_findDot_none hnd]
    cases hgap : longestGapPos [b0 * 256 + b1, b2 * 256 + b3, b4 * 256 + b5,
        b6 * 256 + b7, b8 * 256 + b9, b10 * 256 + b11, b12 * 256 + b13,
        b14 * 256 + b15] with
    | none =>
        rw [parseLoop_phaseA_none hW8 hWm 8 0 [] _ (by omega) rfl (by omega)
          (le_refl _)]
        show assembleWords ([] ++ List.drop 0 [b0 * 256 + b1, b2 * 256 + b3,
          b4 * 256 + b5, b6 * 256 + b7, b8 * 256 + b9, b10 * 256 + b11,
          b12 * 256 + b13, b14 * 256 + b15]) none none = _
        rw [show ([] ++ List.drop 0 [b0 * 256 + b1, b2 * 256 + b3,
            b4 * 256 + b5, b6 * 256 + b7, b8 * 256 + b9, b10 * 256 + b11,
            b12 * 256 + b13, b14 * 256 + b15]) =
          [b0 * 256 + b1, b2 * 256 + b3, b4 * 256 + b5, b6 * 256 + b7,
            b8 * 256 + b9, b10 * 256 + b11, b12 * 256 + b13, b14 * 256 + b15]
          from by simp]
        rw [assembleWords_nogap hW8]
        rw [← hwsof, wordsToBytes_wordsOf (by simp) hlt]
    | some g =>
        obtain ⟨hg8, hg0, hgl⟩ := longestGapPos_spec hgap
        rw [parseLoop_phaseA_some hW8 hWm hg8 hg0 hgl 8 0 [] _ (by omega) rfl
          (by omega) (le_refl _)]
        have hrl : runLen [b0 * 256 + b1, b2 * 256 + b3, b4 * 256 + b5,
            b6 * 256 + b7, b8 * 256 + b9, b10 * 256 + b11, b12 * 256 + b13,
            b14 * 256 + b15] g ≤ 8 - g := by
          have hx := runLen_le [b0 * 256 + b1, b2 * 256 + b3, b4 * 256 + b5,
            b6 * 256 + b7, b8 * 256 + b9, b10 * 256 + b11, b12 * 256 + b13,
            b14 * 256 + b15] g
          rw [hW8] at hx
          exact hx
        show assembleWords (([] ++ List.take (g - 0) (List.drop 0
            [b0 * 256 + b1, b2 * 256 + b3, b4 * 256 + b5, b6 * 256 + b7,
              b8 * 256 + b9, b10 * 256 + b11, b12 * 256 + b13,
              b14 * 256 + b15])) ++
          List.drop (g + runLen [b0 * 256 + b1, b2 * 256 + b3, b4 * 256 + b5,
            b6 * 256 + b7, b8 * 256 + b9, b10 * 256 + b11, b12 * 256 + b13,
            b14 * 256 + b15] g) [b0 * 256 + b1, b2 * 256 + b3, b4 * 256 + b5,
            b6 * 256 + b7, b8 * 256 + b9, b10 * 256 + b11, b12 * 256 + b13,
            b14 * 256 + b15]) (some g) none = _
        rw [show (([] ++ List.take (g - 0) (List.drop 0
            [b0 * 256 + b1, b2 * 256 + b3, b4 * 256 + b5, b6 * 256 + b7,
              b8 * 256 + b9, b10 * 256 + b11, b12 * 256 + b13,
              b14 * 256 + b15])) ++
          List.drop (g + runLen [b0 * 256 + b1, b2 * 256 + b3, b4 * 256 + b5,
            b6 * 256 + b7, b8 * 256 + b9, b10 * 256 + b11, b12 * 256 + b13,
            b14 * 256 + b15] g) [b0 * 256 + b1, b2 * 256 + b3, b4 * 256 + b5,
            b6 * 256 + b7, b8 * 256 + b9, b10 * 256 + b11, b12 * 256 + b13,
            b14 * 256 + b15]) =
          List.take g [b0 * 256 + b1, b2 * 256 + b3, b4 * 256 + b5,
            b6 * 256 + b7, b8 * 256 + b9, b10 * 256 + b11, b12 * 256 + b13,
            b14 * 256 + b15] ++
          List.drop (g + runLen [b0 * 256 + b1, b2 * 256 + b3, b4 * 256 + b5,
            b6 * 256 + b7, b8 * 256 + b9, b10 * 256 + b11, b12 * 256 + b13,
            b14 * 256 + b15] g) [b0 * 256 + b1, b2 * 256 + b3, b4 * 256 + b5,
            b6 * 256 + b7, b8 * 256 + b9, b10 * 256 + b11, b12 * 256 + b13,
            b14 * 256 + b15] from by simp]
        rw [assembleWords_gap (by simp; omega) (by simp; omega)]
        have hTlen : (List.take g [b0 * 256 + b1, b2 * 256 + b3,
            b4 * 256 + b5, b6 * 256 + b7, b8 * 256 + b9, b10 * 256 + b11,
            b12 * 256 + b13, b14 * 256 + b15]).length = g := by
          simp
          omega
        rw [List.take_left' hTlen, List.drop_left' hTlen]
        rw [show (List.take g [b0 * 256 + b1, b2 * 256 + b3, b4 * 256 + b5,
            b6 * 256 + b7, b8 * 256 + b9, b10 * 256 + b11, b12 * 256 + b13,
            b14 * 256 + b15] ++
          List.drop (g + runLen [b0 * 256 + b1, b2 * 256 + b3, b4 * 256 + b5,
            b6 * 256 + b7, b8 * 256 + b9, b10 * 256 + b11, b12 * 256 + b13,
            b14 * 256 + b15] g) [b0 * 256 + b1, b2 * 256 + b3, b4 * 256 + b5,
            b6 * 256 + b7, b8 * 256 + b9, b10 * 256 + b11, b12 * 256 + b13,
            b14 * 256 + b15]).length =
          8 - runLen [b0 * 256 + b1, b2 * 256 + b3, b4 * 256 + b5,
            b6 * 256 + b7, b8 * 256 + b9, b10 * 256 + b11, b12 * 256 + b13,
            b14 * 256 + b15] g from by simp; omega]
        rw [show 8 - (8 - runLen [b0 * 256 + b1, b2 * 256 + b3, b4 * 256 + b5,
            b6 * 256 + b7, b8 * 256 + b9, b10 * 256 + b11, b12 * 256 + b13,
            b14 * 256 + b15] g) =
          runLen [b0 * 256 + b1, b2 * 256 + b3, b4 * 256 + b5, b6 * 256 + b7,
            b8 * 256 + b9, b10 * 256 + b11, b12 * 256 + b13,
            b14 * 256 + b15] g from by omega]
        rw [← gap_reconstruct [b0 * 256 + b1, b2 * 256 + b3, b4 * 256 + b5,
          b6 * 256 + b7, b8 * 256 + b9, b10 * 256 + b11, b12 * 256 + b13,
          b14 * 256 + b15] g]
        rw [← hwsof, wordsToBytes_wordsOf (by simp) hlt]

/-- The formatted IPv6 string fits a 46-byte buffer with room to spare. -/
theorem ntop6core_length {b : List Nat} (hb : b.length = 16)
    (hlt : ∀ x ∈ b, x < 256) : (ntop6core b).length ≤ 45 := by
  have hwsd := wordsOf_getD_lt hlt
  have hws8 := wordsOf_length b
  simp only [ntop6core]
  split_ifs with hspec h5
  · have := printV4_length_le (getD_lt_of_all hlt 12) (getD_lt_of_all hlt 13)
      (getD_lt_of_all hlt 14) (getD_lt_of_all hlt 15)
    simp only [List.length_cons]
    omega
  · have := printV4_length_le (getD_lt_of_all hlt 12) (getD_lt_of_all hlt 13)
      (getD_lt_of_all hlt 14) (getD_lt_of_all hlt 15)
    have hx := toHexL_length_le (hwsd 5)
    simp only [List.length_cons, List.length_append]
    omega
  · have := buildGroups_length hws8 hwsd (longestGapPos (wordsOf b)) 8 0
    omega

/-- With a 46-byte buffer `evutil_inet_ntop(AF_INET6, ...)` returns the full
string, untruncated. -/
theorem ntop6_of_large {b : List Nat} (hb : b.length = 16)
    (hlt : ∀ x ∈ b, x < 256) {len : Nat} (hlen : 46 ≤ len) :
    ntop6 b len = some (ntop6core b) := by
  have hl := ntop6core_length hb hlt
  simp only [ntop6]
  rw [if_neg (by omega), if_neg (by omega)]

/-- `AF_INET` on Linux. -/
def AF_INET : Nat := 2
/-- `AF_INET6` on Linux. -/
def AF_INET6 : Nat := 10

/-- `evutil_inet_ntop` (`evutil.c:1289-1379`), address as raw bytes. -/
def evutil_inet_ntop (af : Nat) (src : List Nat) (len : Nat) :
    Option (List Nat) :=
  if af = AF_INET then ntop4 src len
  else if af = AF_INET6 then ntop6 src len
  else none

/-- `evutil_inet_pton` (`evutil.c:1416-1522`); `none` covers both the `0`
(no parse) and `-1` (bad family / impossible move) returns. -/
def evutil_inet_pton (af : Nat) (s : List Nat) : Option (List Nat) :=
  if af = AF_INET then pton4 s
  else if af = AF_INET6 then pton6 s
  else none

/-- C7: address formatting and parsing round-trip.  For every IPv4 address
(4 bytes) and every IPv6 address (16 bytes), formatting it with
`evutil_inet_ntop` into a buffer of at least 46 bytes succeeds (returns the
buffer), and parsing the printed string back with `evutil_inet_pton` for the
same address family reconstructs exactly the original address bytes. -/
theorem inet_ntop_pton_round_trip :
    ∀ (len : Nat), 46 ≤ len →
      (∀ (b : List Nat), b.length = 4 → (∀ x ∈ b, x < 256) →
        ∃ s, evutil_inet_ntop AF_INET b len = some s ∧
          evutil_inet_pton AF_INET s = some b) ∧
      (∀ (b : List Nat), b.length = 16 → (∀ x ∈ b, x < 256) →
        ∃ s, evutil_inet_ntop AF_INET6 b len = some s ∧
          evutil_inet_pton AF_INET6 s = some b) := by
  intro len hlen
  constructor
  · intro b hb hlt
    obtain ⟨s, hn, hp⟩ := pton4_ntop4 b hb hlt len hlen
    refine ⟨s, ?_, ?_⟩
    · show (if AF_INET = AF_INET then ntop4 b len else _) = some s
      rw [if_pos rfl]
      exact hn
    · show (if AF_INET = AF_INET then pton4 s else _) = some b
      rw [if_pos rfl]
      exact hp
  · intro b hb hlt
    refine ⟨ntop6core b, ?_, ?_⟩
    · show (if AF_INET6 = AF_INET then ntop4 b len
        else if AF_INET6 = AF_INET6 then ntop6 b len else none) =
          some (ntop6core b)
      rw [if_neg (by decide), if_pos rfl]
      exact ntop6_of_large hb hlt hlen
    · show (if AF_INET6 = AF_INET then pton4 (ntop6core b)
        else if AF_INET6 = AF_INET6 then pton6 (ntop6core b) else none) =
          some b
      rw [if_neg (by decide), if_pos rfl]
      exact pton6_ntop6core hb hlt

/-- The round trip at two concrete addresses, `127.0.0.1` and
`2001:db8::1`. -/
theorem inet_ntop_pton_round_trip_witness :
    (∃ s, evutil_inet_ntop AF_INET [127, 0, 0, 1] 46 = some s ∧
      evutil_inet_pton AF_INET s = some [127, 0, 0, 1]) ∧
    (∃ s, evutil_inet_ntop AF_INET6
        [32, 1, 13, 184, 0, 0, 0, 0, 0, 0, 0, 0, 0, 0, 0, 1] 46 = some s ∧
      evutil_inet_pton AF_INET6 s =
        some [32, 1, 13, 184, 0, 0, 0, 0, 0, 0, 0, 0, 0, 0, 0, 1]) :=
  ⟨(inet_ntop_pton_round_trip 46 (by decide)).1 [127, 0, 0, 1] (by decide)
      (by decide),
    (inet_ntop_pton_round_trip 46 (by decide)).2
      [32, 1, 13, 184, 0, 0, 0, 0, 0, 0, 0, 0, 0, 0, 0, 1] (by decide)
      (by decide)⟩

end Inet
